import Mathlib

/-!
Verification of the type-algebra core of the codon compiler front end
(`src/codon/parser/ast/types.cpp` and `src/codon/parser/visitors/typecheck/infer.cpp`).

The mutable, shared, possibly cyclic graph of type nodes is embedded as a store
(`St`) of nodes addressed by stable integer indices; a `TypePtr` becomes a `Nat`
index into the store.  Destructive unification becomes explicit state passing:
every operation that mutates the graph takes and returns a store.  All recursive
walks over the (possibly cyclic) graph take an explicit fuel argument and return
`none` when the fuel runs out (or when the C++ would crash / assert-fail on a
malformed graph); a `some` result is the value actually computed by the code.

Node kinds covered: `LinkType` (Unbound/Generic/Link), `ClassType`, `RecordType`,
`UnionType` (open and sealed) and `StaticType`, together with the `TypeTrait`
constraint (stored as the index of the trait's inner type on the link cell).
`FuncType`/`PartialType` and `CallableTrait` are not part of the embedded
grammar (their unification delegates to the record layer or needs the whole
typechecker through `Unification::realizator`).
-/

namespace Codon

/-- An evaluated compile-time static value (`StaticValue` carries either an
`int` or a `str`; the struct itself is not under `src/`, so this follows the
spec: "a type that carries a compile-time-evaluated literal value"). -/
inductive SVal where
  | i (v : Int)
  | s (v : String)
deriving DecidableEq, Repr

/-- The fragment of the expression AST that static types capture
(`StaticType::expr`): literals, identifiers referring to a dependent generic,
and binary expressions over them (`StaticType::parseExpr` walks exactly
id/unary/binary/if nodes; unary and if are omitted from the grammar). -/
inductive SExpr where
  | lit (v : SVal)
  | eid (n : String)
  | bin (op : String) (l r : SExpr)
deriving DecidableEq, Repr

/-- `LinkType::Kind`: Unbound, Generic or Link. -/
inductive TKind where
  | unbound
  | generic
  | link
deriving DecidableEq, Repr

/-- A `LinkType` node: kind, numeric id, scope level, link target (`type`),
static-ness tag (`isStatic`, 0 = not static), attached trait (a `TypeTrait`,
stored as the index of its inner type), default type, and generic name. -/
structure LinkCell where
  kind : TKind
  id : Int
  level : Int
  target : Option Nat
  isStat : Nat
  trait : Option Nat
  dflt : Option Nat
  gname : String
deriving DecidableEq, Repr

/-- `ClassType::Generic`: name, nice name, bound type, id. -/
structure Generic where
  gname : String
  gnice : String
  ty : Nat
  gid : Int
deriving DecidableEq, Repr

/-- A node of the type graph. `uni` is `UnionType` (a `RecordType` named
"Union" with no args); `sta` is `StaticType` (expression, static-ness tag
`svType` with 1 = STRING and 2 = INT, and the evaluated value if any). -/
inductive Node where
  | link (c : LinkCell)
  | cls (name niceName : String) (generics hidden : List Generic)
  | record (name niceName : String) (generics hidden : List Generic) (args : List Nat)
  | uni (generics : List Generic) (sealedU : Bool)
  | sta (generics : List Generic) (e : SExpr) (svType : Nat) (sval : Option SVal)
deriving DecidableEq, Repr

/-- The store of type nodes: the shared mutable graph, addressed by index. -/
structure St where
  nodes : List Node
deriving DecidableEq, Repr

def St.get? (s : St) (i : Nat) : Option Node :=
  s.nodes[i]?

def St.set (s : St) (i : Nat) (n : Node) : St :=
  ⟨s.nodes.set i n⟩

/-- Allocate a fresh node (`std::make_shared`); returns the new store and the
index of the new node. -/
def St.push (s : St) (n : Node) : St × Nat :=
  (⟨s.nodes ++ [n]⟩, s.nodes.length)

/-- Update the link cell at `i` (no-op if `i` is not a link node). -/
def St.setCell (s : St) (i : Nat) (fn : LinkCell → LinkCell) : St :=
  match s.get? i with
  | some (.link c) => s.set i (.link (fn c))
  | _ => s

/-- Update the cached static value of the static node at `i`
(`expr->staticValue = ...`). -/
def St.setSval (s : St) (i : Nat) (v : Option SVal) : St :=
  match s.get? i with
  | some (.sta g e st _) => s.set i (.sta g e st v)
  | _ => s

/-- `Type::Unification`: the per-attempt undo log — linked unbound variables,
leveled variables with their previous levels, and cells that had a trait
attached.  (The `realizator` back-pointer is not modelled; it is used only by
`CallableTrait`, which is outside the embedded grammar.) -/
structure ULog where
  linked : List Nat
  leveled : List (Nat × Int)
  traits : List Nat
deriving DecidableEq, Repr

def ULog.empty : ULog :=
  ⟨[], [], []⟩

def ULog.app (a b : ULog) : ULog :=
  ⟨a.linked ++ b.linked, a.leveled ++ b.leveled, a.traits ++ b.traits⟩

def ULog.pushLinked (a : ULog) (i : Nat) : ULog :=
  ⟨a.linked ++ [i], a.leveled, a.traits⟩

def ULog.pushLeveled (a : ULog) (i : Nat) (v : Int) : ULog :=
  ⟨a.linked, a.leveled ++ [(i, v)], a.traits⟩

def ULog.pushTrait (a : ULog) (i : Nat) : ULog :=
  ⟨a.linked, a.leveled, a.traits ++ [i]⟩

/-- `Type::Unification::undo` (types.cpp:13-25): restore linked variables to
Unbound with no target (in reverse), restore lowered levels (in reverse), and
remove attached traits. -/
def ULog.undo (l : ULog) (s : St) : St :=
  let s1 := l.linked.reverse.foldl
    (fun s i => s.setCell i (fun c => { c with kind := .unbound, target := none })) s
  let s2 := l.leveled.reverse.foldl
    (fun s p => s.setCell p.1 (fun c => { c with level := p.2 })) s1
  l.traits.foldl (fun s i => s.setCell i (fun c => { c with trait := none })) s2

/-- `Type::follow` / `LinkType::follow`: chase resolved links to the
representative node.  Fuel-bounded because the C++ recursion is unbounded on a
(never-occurring) cyclic chain. -/
def follow : Nat → St → Nat → Option Nat
  | 0, _, _ => none
  | f + 1, s, t =>
    match s.get? t with
    | some (.link c) =>
      match c.kind, c.target with
      | .link, some u => follow f s u
      | .link, none => none
      | _, _ => some t
    | some _ => some t
    | none => none

/-- Follow `t` and return the representative index together with its node. -/
def fNode (f : Nat) (s : St) (t : Nat) : Option (Nat × Node) :=
  match follow f s t with
  | some j =>
    match s.get? j with
    | some n => some (j, n)
    | none => none
  | none => none

/-- The class view of a node (`Type::getClass`, after following links):
unions are classes named "Union". -/
def Node.clsView : Node → Option (String × List Generic × List Generic)
  | .cls n _ g h => some (n, g, h)
  | .record n _ g h _ => some (n, g, h)
  | .uni g _ => some ("Union", g, [])
  | _ => none

/-- The record view of a node (`Type::getRecord`, after following links):
unions are records named "Union" with no args. -/
def Node.recView : Node → Option (String × List Generic × List Nat)
  | .record n _ g _ a => some (n, g, a)
  | .uni g _ => some ("Union", g, [])
  | _ => none

/-- `Type::isStaticType` (types.cpp:31-38): follow; a static type reports its
value kind, an unbound/generic link its `isStatic` flag, anything else 0. -/
def isStaticType (f : Nat) (s : St) (t : Nat) : Option Nat :=
  match fNode f s t with
  | some (_, .sta _ _ st _) => some st
  | some (_, .link c) => some c.isStat
  | some _ => some 0
  | none => none

mutual

/-- `canRealize` per node kind (types.cpp): a link can realize iff it is
resolved and its target can; classes/records/unions require all generics
(and record args) to realize; a static realizes when evaluated or when all
its dependent generics realize. -/
def canRealize : Nat → St → Nat → Option Bool
  | 0, _, _ => none
  | f + 1, s, t =>
    match s.get? t with
    | some (.link c) =>
      match c.kind, c.target with
      | .link, some u => canRealize f s u
      | .link, none => none
      | _, _ => some false
    | some (.cls _ _ g h) => crGens f s (g ++ h)
    | some (.record _ _ g h a) =>
      match crArgs f s a with
      | some true => crGens f s (g ++ h)
      | some false => some false
      | none => none
    | some (.uni g _) => crGens f s g
    | some (.sta g _ _ sv) =>
      match sv with
      | some _ => some true
      | none => crGens f s g
    | none => none

termination_by structural f _a _b => f
/-- All generics' types can realize (short-circuiting `std::all_of`). -/
def crGens : Nat → St → List Generic → Option Bool
  | 0, _, _ => none
  | _ + 1, _, [] => some true
  | f + 1, s, g :: gs =>
    match canRealize f s g.ty with
    | some true => crGens f s gs
    | some false => some false
    | none => none

termination_by structural f _a _b => f
/-- All record args can realize. -/
def crArgs : Nat → St → List Nat → Option Bool
  | 0, _, _ => none
  | _ + 1, _, [] => some true
  | f + 1, s, a :: as_ =>
    match canRealize f s a with
    | some true => crArgs f s as_
    | some false => some false
    | none => none

termination_by structural f _a _b => f
end

/-- Rendering of a static value (`StaticValue::toString`; the struct is not
under `src/`, modelled from the spec: int and str literal values). -/
def SVal.str : SVal → String
  | .i v => toString v
  | .s v => "'" ++ v ++ "'"

/-- `Expr::toString` on the captured static expression: an injective
S-expression rendering; only equality of the rendered strings is ever used
(`StaticType::unify`, types.cpp:658). -/
def SExpr.srepr : SExpr → String
  | .lit v => "(lit " ++ v.str ++ ")"
  | .eid n => "(id " ++ n ++ ")"
  | .bin op l r => "(bin " ++ op ++ " " ++ l.srepr ++ " " ++ r.srepr ++ ")"

def SExpr.isId : SExpr → Bool
  | .eid _ => true
  | _ => false

/-- Static binary operator evaluation, as the typechecker folds static
binary expressions (`TypecheckVisitor::visit(BinaryExpr*)`,
typecheck_expr.cpp:342-430).  Inner `none` means the expression stays
unevaluated; outer `none` models the thrown "static division by zero". -/
def evalBin (op : String) : SVal → SVal → Option (Option SVal)
  | .s a, .s b =>
    if op = "+" then some (some (.s (a ++ b)))
    else if op = "==" then some (some (.i (if a = b then 1 else 0)))
    else if op = "!=" then some (some (.i (if a = b then 0 else 1)))
    else some none
  | .i a, .i b =>
    if op = "<" then some (some (.i (if a < b then 1 else 0)))
    else if op = "<=" then some (some (.i (if a ≤ b then 1 else 0)))
    else if op = ">" then some (some (.i (if a > b then 1 else 0)))
    else if op = ">=" then some (some (.i (if a ≥ b then 1 else 0)))
    else if op = "==" then some (some (.i (if a = b then 1 else 0)))
    else if op = "!=" then some (some (.i (if a = b then 0 else 1)))
    else if op = "&&" then some (some (.i (if a ≠ 0 ∧ b ≠ 0 then 1 else 0)))
    else if op = "||" then some (some (.i (if a ≠ 0 ∨ b ≠ 0 then 1 else 0)))
    else if op = "+" then some (some (.i (a + b)))
    else if op = "-" then some (some (.i (a - b)))
    else if op = "*" then some (some (.i (a * b)))
    else if op = "//" then if b = 0 then none else some (some (.i (a.tdiv b)))
    else if op = "%" then if b = 0 then none else some (some (.i (a.tmod b)))
    else some none
  | _, _ => some none

/-- `StaticType::evaluate` on the captured expression: type-check the
expression with the dependent generics in scope.  An identifier folds to a
literal only when its generic's type follows to an already evaluated static
(`TypecheckVisitor::visit(IdExpr*)`, typecheck_expr.cpp:171-181); otherwise
the expression stays unevaluated (inner `none`). -/
def evalSE (f : Nat) (s : St) (gens : List Generic) : SExpr → Option (Option SVal)
  | .lit v => some (some v)
  | .eid n =>
    match gens.find? (fun g => g.gname = n) with
    | none => none
    | some g =>
      match fNode f s g.ty with
      | some (_, .sta _ _ _ (some v)) => some (some v)
      | some (_, _) => some none
      | none => none
  | .bin op l r =>
    match evalSE f s gens l, evalSE f s gens r with
    | some (some lv), some (some rv) => evalBin op lv rv
    | some _, some _ => some none
    | _, _ => none

/-- `StaticType::evaluate` (types.cpp:727-738): an already evaluated static
returns its cached value, otherwise the expression is type-checked. -/
def staEval (f : Nat) (s : St) (i : Nat) : Option (Option SVal) :=
  match s.get? i with
  | some (.sta _ _ _ (some v)) => some (some v)
  | some (.sta g e _ none) => evalSE f s g e
  | _ => none

/-- The evaluation step at the head of `StaticType::unify` (types.cpp:634-637):
`if (canRealize()) expr->staticValue = evaluate();`.  When evaluation does not
produce a value the static stays unevaluated (release-mode `seqassert`). -/
def staEntry (f : Nat) (s : St) (i : Nat) : Option St :=
  match canRealize f s i with
  | some true =>
    match staEval f s i with
    | some (some v) => some (s.setSval i (some v))
    | some none => some s
    | none => none
  | some false => some s
  | none => none

/-- Keep only the named generics (`if (!a.name.empty())`). -/
def namedGens (g : List Generic) : List Generic :=
  g.filter (fun a => a.gname ≠ "")

def joinComma (l : List String) : String :=
  match l with
  | [] => ""
  | x :: xs => xs.foldl (fun a b => a ++ "," ++ b) x

def brack (s : String) : String :=
  if s = "" then "" else "[" ++ s ++ "]"

/-- Insert into a list sorted by `String` order without duplicating keys
(`std::set<std::string>::insert`). -/
def insSortedKey (k : String) : List String → List String
  | [] => [k]
  | x :: xs =>
    if k = x then x :: xs
    else if k < x then k :: x :: xs
    else x :: insSortedKey k xs

def dedupSorted (l : List String) : List String :=
  l.foldl (fun acc k => insSortedKey k acc) []

mutual

/-- `realizedName` per node kind (types.cpp).  State-threading because
`StaticType::realizedName` evaluates and caches the static value
(`const_cast`, types.cpp:722-723).  An unbound/generic link renders as "?";
a class/record renders `name[generics]` when realizable and "" otherwise
(the `_rn` memo field is not modelled: it caches this same computation);
a union renders the *sorted, deduplicated* set of its members' realized
names (types.cpp:945-954); a static renders its evaluated value. -/
def realizedName : Nat → St → Nat → Option (String × St)
  | 0, _, _ => none
  | f + 1, s, t =>
    match s.get? t with
    | some (.link c) =>
      match c.kind, c.target with
      | .link, some u => realizedName f s u
      | .link, none => none
      | _, _ => some ("?", s)
    | some (.cls n _ g _) =>
      match rnGens f s (namedGens g) with
      | some (gs, s1) =>
        match canRealize f s1 t with
        | some true => some (n ++ brack (joinComma gs), s1)
        | some false => some ("", s1)
        | none => none
      | none => none
    | some (.record n _ g _ _) =>
      match rnGens f s (namedGens g) with
      | some (gs, s1) =>
        match canRealize f s1 t with
        | some true => some (n ++ brack (joinComma gs), s1)
        | some false => some ("", s1)
        | none => none
      | none => none
    | some (.uni g _) =>
      match canRealize f s t with
      | some true =>
        match rnTys f s (g.map (fun a => a.ty)) with
        | some (gs, s1) => some ("Union" ++ brack (joinComma (dedupSorted gs)), s1)
        | none => none
      | some false => none
      | none => none
    | some (.sta g e st sv) =>
      match canRealize f s t with
      | some true =>
        match sv with
        | some v => some (v.str, s)
        | none =>
          match evalSE f s g e with
          | some (some v) => some (v.str, s.set t (.sta g e st (some v)))
          | some none => none
          | none => none
      | some false => none
      | none => none
    | none => none

termination_by structural f _a _b => f
/-- Realized names of a list of generics, threading the store. -/
def rnGens : Nat → St → List Generic → Option (List String × St)
  | 0, _, _ => none
  | _ + 1, s, [] => some ([], s)
  | f + 1, s, g :: gs =>
    match realizedName f s g.ty with
    | some (n, s1) =>
      match rnGens f s1 gs with
      | some (ns, s2) => some (n :: ns, s2)
      | none => none
    | none => none
termination_by structural f _a _b => f

/-- Realized names of a list of types, threading the store (the
`for (auto &a : generics) gss.insert(a.type->realizedName())` loop of
`UnionType::realizedName`). -/
def rnTys : Nat → St → List Nat → Option (List String × St)
  | 0, _, _ => none
  | _ + 1, s, [] => some ([], s)
  | f + 1, s, t :: ts =>
    match realizedName f s t with
    | some (n, s1) =>
      match rnTys f s1 ts with
      | some (ns, s2) => some (n :: ns, s2)
      | none => none
    | none => none
termination_by structural f _a _b => f
end

mutual

/-- `LinkType::occurs` (types.cpp:212-247): does the unbound variable with
id `selfId` (and level `selfLvl`) occur in `t`?  As a side effect, when an
undo log is present, the levels of unbound variables encountered in `t` are
lowered to `selfLvl` (and recorded).  The `occurs(tl->trait.get())` call on
an attached trait is omitted: a `Trait` is neither a link, a static nor a
class, so that call always returns false in the source. -/
def occurs : Nat → Bool → Int → Int → Nat → St → ULog → Option (Bool × St × ULog)
  | 0, _, _, _, _, _, _ => none
  | f + 1, u, selfId, selfLvl, t, s, l =>
    match s.get? t with
    | some (.link c) =>
      match c.kind with
      | .unbound =>
        if c.id = selfId then some (true, s, l)
        else if u ∧ c.level > selfLvl then
          some (false, s.set t (.link { c with level := selfLvl }), l.pushLeveled t c.level)
        else some (false, s, l)
      | .link =>
        match c.target with
        | some v => occurs f u selfId selfLvl v s l
        | none => none
      | .generic => some (false, s, l)
    | some (.sta g _ _ _) => occursGens f u selfId selfLvl g s l
    | some (.cls _ _ g _) => occursGens f u selfId selfLvl g s l
    | some (.record _ _ g _ a) =>
      match occursGens f u selfId selfLvl g s l with
      | some (true, s1, l1) => some (true, s1, l1)
      | some (false, s1, l1) => occursArgs f u selfId selfLvl a s1 l1
      | none => none
    | some (.uni g _) => occursGens f u selfId selfLvl g s l
    | none => none

termination_by structural f _a _b _c _d _e _g => f
/-- Occurs over a list of generics, short-circuiting on the first hit. -/
def occursGens : Nat → Bool → Int → Int → List Generic → St → ULog → Option (Bool × St × ULog)
  | 0, _, _, _, _, _, _ => none
  | _ + 1, _, _, _, [], s, l => some (false, s, l)
  | f + 1, u, selfId, selfLvl, g :: gs, s, l =>
    match occurs f u selfId selfLvl g.ty s l with
    | some (true, s1, l1) => some (true, s1, l1)
    | some (false, s1, l1) => occursGens f u selfId selfLvl gs s1 l1
    | none => none

termination_by structural f _a _b _c _d _e _g => f
/-- Occurs over record args, short-circuiting on the first hit. -/
def occursArgs : Nat → Bool → Int → Int → List Nat → St → ULog → Option (Bool × St × ULog)
  | 0, _, _, _, _, _, _ => none
  | _ + 1, _, _, _, [], s, l => some (false, s, l)
  | f + 1, u, selfId, selfLvl, a :: as_, s, l =>
    match occurs f u selfId selfLvl a s l with
    | some (true, s1, l1) => some (true, s1, l1)
    | some (false, s1, l1) => occursArgs f u selfId selfLvl as_ s1 l1
    | none => none

termination_by structural f _a _b _c _d _e _g => f
end

/-- Sorted insertion into a key-value list ordered by key
(`std::map<std::string, TypePtr>` insertion; the key is known to be absent). -/
def insKeyed (k : String) (v : Nat) : List (String × Nat) → List (String × Nat)
  | [] => [(k, v)]
  | p :: ps => if k < p.1 then (k, v) :: p :: ps else p :: insKeyed k v ps

mutual

/-- `Type::unify` virtual dispatch on the kind of `a`.  Returns the score
(`-1` = failure), the mutated store and the undo log.  `u` is whether an undo
log was supplied (`undo != nullptr`). -/
def unify (f : Nat) (u : Bool) (a b : Nat) (s : St) (l : ULog) :
    Option (Int × St × ULog) :=
  match f with
  | 0 => none
  | f + 1 =>
    match s.get? a with
    | some (.link _) => unifyLink f u a b s l
    | some (.cls n _ g _) => unifyCls f u a n g b s l
    | some (.record n _ g _ args) => unifyRec f u a n g args b s l
    | some (.uni _ _) => unifyUni f u a b s l
    | some (.sta _ _ _ _) => unifySta f u a b s l
    | none => none

termination_by structural f
/-- `LinkType::unify` (types.cpp:75-105): follow resolved links, refuse
generics, then for an unbound variable check static-ness, delegate through a
static whose expression is a plain identifier, handle the unbound-vs-unbound
id tie-break (same id scores 1; the lower id wins, so the call is swapped when
this id is lower), and otherwise fall through to the binding tail. -/
def unifyLink (f : Nat) (u : Bool) (a b : Nat) (s : St) (l : ULog) :
    Option (Int × St × ULog) :=
  match f with
  | 0 => none
  | f + 1 =>
    match s.get? a with
    | some (.link c) =>
      match c.kind with
      | .link =>
        match c.target with
        | some t => unify f u t b s l
        | none => none
      | .generic => some (-1, s, l)
      | .unbound =>
        match isStaticType f s b with
        | none => none
        | some sb =>
          if c.isStat ≠ sb then some (-1, s, l)
          else
            match fNode f s b with
            | none => none
            | some (_, .sta gs (.eid _) _ _) =>
              match gs.get? 0 with
              | some g0 => unify f u a g0.ty s l
              | none => none
            | some _ =>
              match s.get? b with
              | some (.link t) =>
                match t.kind with
                | .link =>
                  match t.target with
                  | some tt => unify f u tt a s l
                  | none => none
                | .generic => some (-1, s, l)
                | .unbound =>
                  if c.id = t.id then some (1, s, l)
                  else if c.id < t.id then unify f u b a s l
                  else unifyBind f u a b s l
              | _ => unifyBind f u a b s l
    | _ => none

termination_by structural f
/-- The binding tail of `LinkType::unify` (types.cpp:106-130): occurs check,
trait check (a `TypeTrait` unifies the candidate against its inner type), and
— only when an undo log is present — the destructive bind, recorded in the
log, with trait propagation onto an unbound target without a trait. -/
def unifyBind (f : Nat) (u : Bool) (a b : Nat) (s : St) (l : ULog) :
    Option (Int × St × ULog) :=
  match f with
  | 0 => none
  | f + 1 =>
    match s.get? a with
    | some (.link c) =>
      match occurs f u c.id c.level b s l with
      | none => none
      | some (true, s1, l1) => some (-1, s1, l1)
      | some (false, s1, l1) =>
        match (match c.trait with
               | none => some ((0 : Int), s1, l1)
               | some inner => unify f u b inner s1 l1) with
        | none => none
        | some (tr, s2, l2) =>
          if tr = -1 then some (-1, s2, l2)
          else if u then
            match follow f s2 b with
            | none => none
            | some j =>
              match s2.get? a with
              | some (.link c2) =>
                let s3 := s2.set a (.link { c2 with kind := .link, target := some j })
                let l3 := l2.pushLinked a
                match s3.get? j with
                | some (.link tj) =>
                  if c2.trait.isSome ∧ tj.kind = .unbound ∧ tj.trait = none then
                    some (0, s3.set j (.link { tj with trait := c2.trait }), l3.pushTrait j)
                  else some (0, s3, l3)
                | _ => some (0, s3, l3)
              | _ => none
          else some (0, s2, l2)
    | _ => none

termination_by structural f
/-- `ClassType::unify` (types.cpp:256-276) with `this`'s name and generics
given explicitly (it is also invoked on the class part of a record): name
equality, then pairwise generic unification, scoring `3 +` the sum. -/
def unifyCls (f : Nat) (u : Bool) (a : Nat) (n : String) (g : List Generic)
    (b : Nat) (s : St) (l : ULog) : Option (Int × St × ULog) :=
  match f with
  | 0 => none
  | f + 1 =>
    match fNode f s b with
    | none => none
    | some (_, jn) =>
      match jn.clsView with
      | some (tn, tg, _) =>
        if n ≠ tn then some (-1, s, l)
        else if g.length ≠ tg.length then some (-1, s, l)
        else
          match unifyPairs f u ((g.map (fun x => x.ty)).zip (tg.map (fun x => x.ty))) s l with
          | none => none
          | some (none, s1, l1) => some (-1, s1, l1)
          | some (some sum, s1, l1) => some (3 + sum, s1, l1)
      | none =>
        match s.get? b with
        | some (.link _) => unifyLink f u b a s l
        | _ => some (-1, s, l)

termination_by structural f
/-- `RecordType::unify` (types.cpp:363-392): the `int` / `Int[N]` bridge,
pairwise arg unification, the tuple relaxation (only record members matter,
with a name-match bonus), and otherwise the class-level check. -/
def unifyRec (f : Nat) (u : Bool) (a : Nat) (n : String) (g : List Generic)
    (args : List Nat) (b : Nat) (s : St) (l : ULog) : Option (Int × St × ULog) :=
  match f with
  | 0 => none
  | f + 1 =>
    match fNode f s b with
    | none => none
    | some (j, jn) =>
      match jn.recView with
      | some (tn, _, targs) =>
        if n = "int" ∧ tn = "Int" then unify f u j a s l
        else if tn = "int" ∧ n = "Int" then
          let p := s.push (.sta [] (.lit (.i 64)) 2 (some (.i 64)))
          match g.get? 0 with
          | some g0 => unify f u g0.ty p.2 p.1 l
          | none => none
        else if args.length ≠ targs.length then some (-1, s, l)
        else
          match unifyPairs f u (args.zip targs) s l with
          | none => none
          | some (none, s1, l1) => some (-1, s1, l1)
          | some (some sum, s1, l1) =>
            if n.startsWith "Tuple.N" ∨ tn.startsWith "Tuple.N" then
              some ((2 + sum) + (if n = tn then 1 else 0), s1, l1)
            else unifyCls f u a n g j s1 l1
      | none =>
        match s.get? b with
        | some (.link _) => unifyLink f u b a s l
        | _ => some (-1, s, l)

termination_by structural f
/-- `StaticType::unify` (types.cpp:632-670): evaluate realizable sides first;
compare static value kinds; two evaluated values compare for equality
(score 2); an evaluated side defers to the unevaluated side; an unevaluated
identifier against an evaluated static unifies through its generic; otherwise
sizes, expression text and pairwise generics must agree. -/
def unifySta (f : Nat) (u : Bool) (a b : Nat) (s : St) (l : ULog) :
    Option (Int × St × ULog) :=
  match f with
  | 0 => none
  | f + 1 =>
    match fNode f s b with
    | none => none
    | some (j, .sta _ _ _ _) =>
      match staEntry f s a with
      | none => none
      | some s1 =>
        match staEntry f s1 j with
        | none => none
        | some s2 =>
          match s2.get? a, s2.get? j with
          | some (.sta ga ea sta_ sva), some (.sta gj ej stj svj) =>
            if sta_ ≠ stj then some (-1, s2, l)
            else
              match sva, svj with
              | some va, some vj =>
                if va = vj then some (2, s2, l) else some (-1, s2, l)
              | some _, none => unify f u b a s2 l
              | none, _ =>
                if ea.isId ∧ svj.isSome then
                  match ga.get? 0 with
                  | some g0 => unify f u g0.ty b s2 l
                  | none => none
                else if ga.length ≠ gj.length then some (-1, s2, l)
                else if ¬(ea.isId ∧ ej.isId) ∧ ea.srepr ≠ ej.srepr then some (-1, s2, l)
                else
                  match unifyPairs f u ((ga.map (fun x => x.ty)).zip (gj.map (fun x => x.ty))) s2 l with
                  | none => none
                  | some (none, s3, l3) => some (-1, s3, l3)
                  | some (some sum, s3, l3) => some (2 + sum, s3, l3)
          | _, _ => none
    | some (_, _) =>
      match s.get? b with
      | some (.link _) => unifyLink f u b a s l
      | _ => some (-1, s, l)

termination_by structural f
/-- `UnionType::unify` (types.cpp:875-932).  A sealed union against another
union: trivial success (score 0) unless both sides realize, else deduplicate
both alternative lists by realized name (unifying colliding duplicates),
require equal sizes and unify pairwise in sorted key order.  An open union
absorbs: against a union, it absorbs every alternative; against anything
else it first probes existing alternatives (newest first, with a null undo)
and otherwise appends the type as a new alternative (score 1). -/
def unifyUni (f : Nat) (u : Bool) (a b : Nat) (s : St) (l : ULog) :
    Option (Int × St × ULog) :=
  match f with
  | 0 => none
  | f + 1 =>
    match s.get? a with
    | some (.uni g sealedU) =>
      if sealedU then
        match fNode f s b with
        | none => none
        | some (j, .uni gj _) =>
          match canRealize f s a, canRealize f s j with
          | some ca, some cj =>
            if ¬ca ∨ ¬cj then some (0, s, l)
            else
              match dedup f u g [] s l with
              | none => none
              | some (none, s1, l1) => some (-1, s1, l1)
              | some (some m1, s1, l1) =>
                match dedup f u gj [] s1 l1 with
                | none => none
                | some (none, s2, l2) => some (-1, s2, l2)
                | some (some m2, s2, l2) =>
                  if m1.length ≠ m2.length then some (-1, s2, l2)
                  else
                    match unifyPairs f u ((m1.map (fun x => x.2)).zip (m2.map (fun x => x.2))) s2 l2 with
                    | none => none
                    | some (none, s3, l3) => some (-1, s3, l3)
                    | some (some sum, s3, l3) => some (2 + sum, s3, l3)
          | _, _ => none
        | some (_, _) =>
          match s.get? b with
          | some (.link _) => unifyLink f u b a s l
          | _ => some (-1, s, l)
      else
        match fNode f s b with
        | none => none
        | some (_, .uni gj _) => absorbAll f u a gj s l
        | some (_, _) => absorbScan f u a g.reverse b s l
    | _ => none

termination_by structural f
/-- Pairwise unification loop shared by classes, records, statics and sealed
unions: accumulate the score sum; a failing pair aborts with failure
(`some (none, ...)`), keeping the partially mutated state. -/
def unifyPairs (f : Nat) (u : Bool) (ps : List (Nat × Nat)) (s : St) (l : ULog) :
    Option (Option Int × St × ULog) :=
  match f with
  | 0 => none
  | f + 1 =>
    match ps with
    | [] => some (some 0, s, l)
    | (x, y) :: rest =>
      match unify f u x y s l with
      | none => none
      | some (r, s1, l1) =>
        if r = -1 then some (none, s1, l1)
        else
          match unifyPairs f u rest s1 l1 with
          | none => none
          | some (none, s2, l2) => some (none, s2, l2)
          | some (some sum, s2, l2) => some (some (r + sum), s2, l2)

termination_by structural f
/-- The deduplication loop of `UnionType::unify` (types.cpp:883-901): build a
map keyed by each alternative's realized name; a colliding alternative is
unified with the stored one (failure aborts with `some (none, ...)`). -/
def dedup (f : Nat) (u : Bool) (gs : List Generic) (acc : List (String × Nat))
    (s : St) (l : ULog) : Option (Option (List (String × Nat)) × St × ULog) :=
  match f with
  | 0 => none
  | f + 1 =>
    match gs with
    | [] => some (some acc, s, l)
    | g :: rest =>
      match realizedName f s g.ty with
      | none => none
      | some (key, s1) =>
        match acc.find? (fun p => p.1 = key) with
        | some p =>
          match unify f u g.ty p.2 s1 l with
          | none => none
          | some (r, s2, l2) =>
            if r = -1 then some (none, s2, l2)
            else dedup f u rest acc s2 l2
        | none => dedup f u rest (insKeyed key g.ty acc) s1 l

termination_by structural f
/-- Open union vs union (types.cpp:913-917): absorb every alternative of the
other union, summing the scores. -/
def absorbAll (f : Nat) (u : Bool) (a : Nat) (gj : List Generic) (s : St) (l : ULog) :
    Option (Int × St × ULog) :=
  match f with
  | 0 => none
  | f + 1 =>
    match gj with
    | [] => some (0, s, l)
    | t :: rest =>
      match unify f u a t.ty s l with
      | none => none
      | some (r, s1, l1) =>
        match absorbAll f u a rest s1 l1 with
        | none => none
        | some (sc, s2, l2) => some (r + sc, s2, l2)

termination_by structural f
/-- Open union vs non-union (types.cpp:919-926): scan existing alternatives
newest-first, probing with a null undo log; the first alternative that can
unify is unified for real; otherwise append the type as a new alternative
named "u" with id `100 + size`, succeeding with score 1. -/
def absorbScan (f : Nat) (u : Bool) (a : Nat) (gs : List Generic) (b : Nat)
    (s : St) (l : ULog) : Option (Int × St × ULog) :=
  match f with
  | 0 => none
  | f + 1 =>
    match gs with
    | [] =>
      match s.get? a with
      | some (.uni g2 se) =>
        some (1, s.set a (.uni (g2 ++ [⟨"u", "u", b, 100 + g2.length⟩]) se), l)
      | _ => none
    | gi :: rest =>
      match unify f false gi.ty b s ULog.empty with
      | none => none
      | some (rp, sp, _) =>
        if rp ≥ 0 then unify f u gi.ty b sp l
        else absorbScan f u a rest b sp l

termination_by structural f
end

/-- Lookup in the per-call instantiation cache (`id -> newType`). -/
def cacheFind (c : List (Int × Nat)) (i : Int) : Option Nat :=
  (c.find? (fun p => p.1 = i)).map (fun p => p.2)

mutual

/-- `instantiate(atLevel, unboundCount, cache)` per node kind (types.cpp).
A `Generic` link is looked up in the per-call cache; on a miss a brand-new
`Unbound` cell is allocated at `atLevel` with the next counter id (trait and
default type instantiated too) and recorded in the cache.  An `Unbound` link
returns itself; a resolved link instantiates its target.  Classes, records,
unions and statics instantiate their generics (and args) recursively into a
freshly allocated copy.  Returns (new index, store, counter, cache). -/
def instantiate (f : Nat) (lvl : Int) (t : Nat) (s : St) (cnt : Int)
    (cache : List (Int × Nat)) : Option (Nat × St × Int × List (Int × Nat)) :=
  match f with
  | 0 => none
  | f + 1 =>
    match s.get? t with
    | some (.link c) =>
      match c.kind with
      | .generic =>
        match cacheFind cache c.id with
        | some r => some (r, s, cnt, cache)
        | none =>
          let newId := cnt
          let cnt1 := cnt + 1
          match (match c.trait with
                 | none => some (none, s, cnt1, cache)
                 | some tr =>
                   match instantiate f lvl tr s cnt1 cache with
                   | some (tr2, s2, cnt2, ch2) => some (some tr2, s2, cnt2, ch2)
                   | none => none) with
          | none => none
          | some (tr2, s2, cnt2, ch2) =>
            match (match c.dflt with
                   | none => some (none, s2, cnt2, ch2)
                   | some d =>
                     match instantiate f lvl d s2 cnt2 ch2 with
                     | some (d2, s3, cnt3, ch3) => some (some d2, s3, cnt3, ch3)
                     | none => none) with
            | none => none
            | some (d2, s3, cnt3, ch3) =>
              let p := s3.push (.link ⟨.unbound, newId, lvl, none, c.isStat, tr2, d2, c.gname⟩)
              some (p.2, p.1, cnt3, (c.id, p.2) :: ch3)
      | .unbound => some (t, s, cnt, cache)
      | .link =>
        match c.target with
        | some v => instantiate f lvl v s cnt cache
        | none => none
    | some (.cls n nn g h) =>
      match instGens f lvl g s cnt cache with
      | none => none
      | some (g2, s2, cnt2, ch2) =>
        match instGens f lvl h s2 cnt2 ch2 with
        | none => none
        | some (h2, s3, cnt3, ch3) =>
          let p := s3.push (.cls n nn g2 h2)
          some (p.2, p.1, cnt3, ch3)
    | some (.record n nn g h args) =>
      match instGens f lvl g s cnt cache with
      | none => none
      | some (g2, s2, cnt2, ch2) =>
        match instGens f lvl h s2 cnt2 ch2 with
        | none => none
        | some (h2, s3, cnt3, ch3) =>
          match instArgs f lvl args s3 cnt3 ch3 with
          | none => none
          | some (a2, s4, cnt4, ch4) =>
            let p := s4.push (.record n nn g2 h2 a2)
            some (p.2, p.1, cnt4, ch4)
    | some (.uni g se) =>
      match instGens f lvl g s cnt cache with
      | none => none
      | some (g2, s2, cnt2, ch2) =>
        let p := s2.push (.uni g2 se)
        some (p.2, p.1, cnt2, ch2)
    | some (.sta g e st sv) =>
      match instGens f lvl g s cnt cache with
      | none => none
      | some (g2, s2, cnt2, ch2) =>
        let p := s2.push (.sta g2 e st sv)
        some (p.2, p.1, cnt2, ch2)
    | none => none
termination_by structural f

/-- Instantiate the types of a generic list in order, threading state. -/
def instGens (f : Nat) (lvl : Int) (g : List Generic) (s : St) (cnt : Int)
    (cache : List (Int × Nat)) : Option (List Generic × St × Int × List (Int × Nat)) :=
  match f with
  | 0 => none
  | f + 1 =>
    match g with
    | [] => some ([], s, cnt, cache)
    | x :: xs =>
      match instantiate f lvl x.ty s cnt cache with
      | none => none
      | some (t2, s2, cnt2, ch2) =>
        match instGens f lvl xs s2 cnt2 ch2 with
        | none => none
        | some (xs2, s3, cnt3, ch3) => some ({ x with ty := t2 } :: xs2, s3, cnt3, ch3)
termination_by structural f

/-- Instantiate record args in order, threading state. -/
def instArgs (f : Nat) (lvl : Int) (a : List Nat) (s : St) (cnt : Int)
    (cache : List (Int × Nat)) : Option (List Nat × St × Int × List (Int × Nat)) :=
  match f with
  | 0 => none
  | f + 1 =>
    match a with
    | [] => some ([], s, cnt, cache)
    | x :: xs =>
      match instantiate f lvl x s cnt cache with
      | none => none
      | some (t2, s2, cnt2, ch2) =>
        match instArgs f lvl xs s2 cnt2 ch2 with
        | none => none
        | some (xs2, s3, cnt3, ch3) => some (t2 :: xs2, s3, cnt3, ch3)
termination_by structural f

end

/-! ### The realization cache (`TypecheckVisitor::realizeFunc`)

The cache discipline of function realization (infer.cpp:216-224 and 291-335):
realizations are keyed by the realized name; a cached entry is returned
without touching the body; otherwise the realization record is inserted into
the cache *before* the cloned body is type-checked, so that a recursive call
to the same realized signature finds the in-progress entry.  The parts of
`realizeFunc` that do not affect this discipline (realization bases, the
depth guard, IR node construction) are elided; the body type-checking pass
(`inferTypes` re-entry and everything after it) is abstracted as the `body`
argument, which may itself read and extend the cache. -/

/-- A `Cache::Function::FunctionRealization` record: its `type` field is set
when the record is created (infer.cpp:294-297). -/
structure FRealization where
  rtype : Nat
deriving DecidableEq, Repr

/-- The per-function realization table `realizations` keyed by realized name. -/
abbrev RCache := List (String × FRealization)

def rcFind (c : RCache) (k : String) : Option FRealization :=
  (c.find? (fun p => p.1 = k)).map (fun p => p.2)

/-- `TypecheckVisitor::realizeFunc`, reduced to its caching discipline:
look up the realized name; on a hit return the cached record's type
unchanged (infer.cpp:220-224); on a miss insert the new record keyed by the
realized name (infer.cpp:293-297) and only then run the body type-check
(`realized = inferTypes(suite)`, infer.cpp:335), finally returning the
function type (infer.cpp:447). -/
def realizeFunc (body : RCache → RCache) (rname : String) (ftype : Nat)
    (c : RCache) : Nat × RCache :=
  match rcFind c rname with
  | some r => (r.rtype, c)
  | none =>
    let c1 := (rname, FRealization.mk ftype) :: c
    let c2 := body c1
    (ftype, c2)

/-! ### The iterate-to-fixpoint driver (`TypecheckVisitor::inferTypes`)

infer.cpp:48-117.  The per-iteration statement walk is abstracted as `tr`
(returning the new store, the new pending-defaults list, the number of nodes
newly marked done, and whether the root statement is done), and the
iteration-1 toplevel force-realization block (infer.cpp:65-79) as `fr`. -/

/-- The default-unification round (infer.cpp:89-98): for every pending type
that is a link node with a declared default type, unify it with its default
(each with its own undo log that is never replayed); another round is
warranted if any such unification succeeded. -/
def applyDefaults (uf : Nat) (s : St) : List Nat → Bool → Option (St × Bool)
  | [], another => some (s, another)
  | t :: rest, another =>
    match s.get? t with
    | some (.link c) =>
      match c.dflt with
      | some d =>
        match unify uf true t d s ULog.empty with
        | none => none
        | some (r, s1, _) => applyDefaults uf s1 rest (another ∨ r ≥ 0)
      | none => none
    | some _ => applyDefaults uf s rest another
    | none => none

/-- `TypecheckVisitor::inferTypes` (infer.cpp:48-117): iterate the statement
walk; stop successfully when the root is done; continue while nodes were
newly marked done; otherwise unify pending defaults and run another round if
any default applied; else raise the hard "cannot typecheck the program"
error (`Except.error`).  Fuel-bounded (`none` = still iterating). -/
def inferTypes (tr : St → List Nat → St × List Nat × Nat × Bool) (fr : St → St)
    (uf : Nat) : Nat → Nat → Bool → St → List Nat → Option (Except St St)
  | 0, _, _, _, _ => none
  | f + 1, iteration, isTop, s, pend =>
    match tr s pend with
    | (s1, p1, changedNodes, isDone) =>
      let s2 := if iteration = 1 ∧ isTop then fr s1 else s1
      if isDone then some (.ok s2)
      else if changedNodes ≠ 0 then inferTypes tr fr uf f (iteration + 1) isTop s2 p1
      else
        match applyDefaults uf s2 p1 false with
        | none => none
        | some (s3, another) =>
          if another then inferTypes tr fr uf f (iteration + 1) isTop s3 []
          else some (.error s3)

/-! ## Claims -/

/-- C8: Function realization is keyed by the realized name: if a realization
with the same realized name is already cached, `realizeFunc` returns the
cached realization record without re-processing the body (so two
structurally-equal concrete types with the same realized name share one
realization record); for a new realization, the record is inserted into the
cache before the cloned body is type-checked, so a recursive call to the same
realized signature finds the in-progress entry instead of looping forever. -/
theorem C8_realizeFunc_cache (body : RCache → RCache) (rname : String)
    (ftype : Nat) (c : RCache) :
    (∀ r, rcFind c rname = some r → realizeFunc body rname ftype c = (r.rtype, c)) ∧
    (rcFind c rname = none →
      realizeFunc body rname ftype c = (ftype, body ((rname, FRealization.mk ftype) :: c)) ∧
      rcFind ((rname, FRealization.mk ftype) :: c) rname = some (FRealization.mk ftype)) := by
  refine ⟨fun r h => ?_, fun h => ⟨?_, ?_⟩⟩
  · simp [realizeFunc, h]
  · simp [realizeFunc, h]
  · simp [rcFind, List.find?]

theorem C8_realizeFunc_cache_witness :
    (∀ r, rcFind [("f[int]", FRealization.mk 5)] "f[int]" = some r →
      realizeFunc id "f[int]" 9 [("f[int]", FRealization.mk 5)] =
        (r.rtype, [("f[int]", FRealization.mk 5)])) ∧
    (rcFind [("f[int]", FRealization.mk 5)] "g[int]" = none →
      realizeFunc id "g[int]" 9 [("f[int]", FRealization.mk 5)] =
        (9, id (("g[int]", FRealization.mk 9) :: [("f[int]", FRealization.mk 5)])) ∧
      rcFind (("g[int]", FRealization.mk 9) :: [("f[int]", FRealization.mk 5)]) "g[int]" =
        some (FRealization.mk 9)) := by
  refine ⟨(C8_realizeFunc_cache id "f[int]" 9 _).1, ?_⟩
  exact (C8_realizeFunc_cache id "g[int]" 9 _).2

/-- C9: In the iterate-to-fixpoint driver, whenever an iteration completes
with zero newly-resolved nodes while the root statement is still not done,
the driver first unifies pending unbound variables that have declared
default types with those defaults and runs another round; if that too
produces no progress, the driver aborts by raising the hard "cannot
typecheck the program" compilation error rather than iterating forever. -/
theorem C9_fixpoint_no_progress (tr : St → List Nat → St × List Nat × Nat × Bool)
    (fr : St → St) (uf f iteration : Nat) (s s1 s3 : St) (pend p1 : List Nat)
    (htr : tr s pend = (s1, p1, 0, false)) :
    (applyDefaults uf s1 p1 false = some (s3, false) →
      inferTypes tr fr uf (f + 1) iteration false s pend = some (.error s3)) ∧
    (applyDefaults uf s1 p1 false = some (s3, true) →
      inferTypes tr fr uf (f + 1) iteration false s pend =
        inferTypes tr fr uf f (iteration + 1) false s3 []) := by
  constructor
  · intro hd
    simp [inferTypes, htr, hd]
  · intro hd
    simp [inferTypes, htr, hd]

theorem C9_fixpoint_no_progress_witness :
    (applyDefaults 9 ⟨[]⟩ [] false = some (⟨[]⟩, false) →
      inferTypes (fun s p => (s, p, 0, false)) id 9 1 1 false ⟨[]⟩ [] =
        some (.error ⟨[]⟩)) ∧
    (applyDefaults 9 ⟨[]⟩ [] false = some (⟨[]⟩, true) →
      inferTypes (fun s p => (s, p, 0, false)) id 9 1 1 false ⟨[]⟩ [] =
        inferTypes (fun s p => (s, p, 0, false)) id 9 0 2 false ⟨[]⟩ []) :=
  C9_fixpoint_no_progress (fun s p => (s, p, 0, false)) id 9 0 1 ⟨[]⟩ ⟨[]⟩ ⟨[]⟩ [] [] rfl

/-! ### `std::set<std::string>` facts used by `UnionType::realizedName` -/

theorem mem_insSortedKey (k x : String) :
    ∀ l : List String, x ∈ insSortedKey k l ↔ x = k ∨ x ∈ l := by
  intro l
  induction l with
  | nil => simp [insSortedKey]
  | cons a as ih =>
    by_cases h1 : k = a
    · simp [insSortedKey, h1]
      try tauto
    · by_cases h2 : k < a
      · simp [insSortedKey, h1, h2]
        try tauto
      · simp [insSortedKey, h1, h2, ih]
        try tauto

theorem sorted_insSortedKey (k : String) :
    ∀ l : List String, l.Sorted (· < ·) → (insSortedKey k l).Sorted (· < ·) := by
  intro l
  induction l with
  | nil => intro _; simp [insSortedKey]
  | cons a as ih =>
    intro hs
    rw [List.sorted_cons] at hs
    simp only [insSortedKey]
    by_cases h1 : k = a
    · subst h1
      rw [if_pos rfl, List.sorted_cons]
      exact hs
    · rw [if_neg h1]
      by_cases h2 : k < a
      · rw [if_pos h2, List.sorted_cons]
        refine ⟨fun b hb => ?_, ?_⟩
        · rcases List.mem_cons.mp hb with rfl | hb
          · exact h2
          · exact lt_trans h2 (hs.1 b hb)
        · rw [List.sorted_cons]; exact hs
      · rw [if_neg h2, List.sorted_cons]
        have hak : a < k := by
          rcases lt_trichotomy a k with h | h | h
          · exact h
          · exact absurd h.symm h1
          · exact absurd h h2
        refine ⟨fun b hb => ?_, ih hs.2⟩
        rcases (mem_insSortedKey k b as).mp hb with rfl | hb
        · exact hak
        · exact hs.1 b hb

theorem sorted_mem_ext :
    ∀ (l1 l2 : List String), l1.Sorted (· < ·) → l2.Sorted (· < ·) →
      (∀ x, x ∈ l1 ↔ x ∈ l2) → l1 = l2 := by
  intro l1
  induction l1 with
  | nil =>
    intro l2 _ _ hm
    cases l2 with
    | nil => rfl
    | cons y ys => exact absurd ((hm y).mpr (List.mem_cons_self y ys)) (List.not_mem_nil y)
  | cons x xs ih =>
    intro l2 h1 h2 hm
    cases l2 with
    | nil => exact absurd ((hm x).mp (List.mem_cons_self x xs)) (List.not_mem_nil x)
    | cons y ys =>
      rw [List.sorted_cons] at h1 h2
      have hxy : x = y := by
        rcases List.mem_cons.mp ((hm x).mp (List.mem_cons_self x xs)) with h | h
        · exact h
        · rcases List.mem_cons.mp ((hm y).mpr (List.mem_cons_self y ys)) with h' | h'
          · exact h'.symm
          · exact absurd (lt_trans (h2.1 x h) (h1.1 y h')) (lt_irrefl y)
      subst hxy
      have : xs = ys := by
        refine ih ys h1.2 h2.2 fun z => ⟨fun hz => ?_, fun hz => ?_⟩
        · rcases List.mem_cons.mp ((hm z).mp (List.mem_cons_of_mem x hz)) with rfl | h
          · exact absurd (h1.1 z hz) (lt_irrefl z)
          · exact h
        · rcases List.mem_cons.mp ((hm z).mpr (List.mem_cons_of_mem x hz)) with rfl | h
          · exact absurd (h2.1 z hz) (lt_irrefl z)
          · exact h
      rw [this]

theorem dedupSorted_go_mem (x : String) :
    ∀ (l acc : List String),
      (x ∈ l.foldl (fun a k => insSortedKey k a) acc ↔ x ∈ acc ∨ x ∈ l) := by
  intro l
  induction l with
  | nil => intro acc; simp
  | cons a as ih =>
    intro acc
    simp only [List.foldl_cons, ih, mem_insSortedKey, List.mem_cons]
    tauto

theorem dedupSorted_go_sorted :
    ∀ (l acc : List String), acc.Sorted (· < ·) →
      (l.foldl (fun a k => insSortedKey k a) acc).Sorted (· < ·) := by
  intro l
  induction l with
  | nil => intro acc h; simpa using h
  | cons a as ih => intro acc h; exact ih _ (sorted_insSortedKey a acc h)

theorem dedupSorted_mem (x : String) (l : List String) :
    x ∈ dedupSorted l ↔ x ∈ l := by
  simp [dedupSorted, dedupSorted_go_mem]

theorem dedupSorted_sorted (l : List String) : (dedupSorted l).Sorted (· < ·) :=
  dedupSorted_go_sorted l [] (by simp)

theorem dedupSorted_ext (l1 l2 : List String) (h : ∀ x, x ∈ l1 ↔ x ∈ l2) :
    dedupSorted l1 = dedupSorted l2 :=
  sorted_mem_ext _ _ (dedupSorted_sorted l1) (dedupSorted_sorted l2)
    (fun x => by rw [dedupSorted_mem, dedupSorted_mem]; exact h x)

/-- C10: For every realizable sealed `UnionType`, the realized name is
independent of the insertion order and multiplicity of its alternatives: the
alternatives' realized names are deduplicated and sorted before being joined,
so two union types whose sets of alternative realized names are equal have
identical realized names (and hence identical realization cache keys). -/
theorem C10_union_realizedName_set (f : Nat) (s : St) (u1 u2 : Nat)
    (g1 g2 : List Generic) (se1 se2 : Bool) (gs1 gs2 : List String) (s1 s2 : St)
    (h1 : s.get? u1 = some (.uni g1 se1)) (h2 : s.get? u2 = some (.uni g2 se2))
    (hc1 : canRealize f s u1 = some true) (hc2 : canRealize f s u2 = some true)
    (hr1 : rnTys f s (g1.map (fun a => a.ty)) = some (gs1, s1))
    (hr2 : rnTys f s (g2.map (fun a => a.ty)) = some (gs2, s2))
    (hmem : ∀ x, x ∈ gs1 ↔ x ∈ gs2) :
    ∃ n, realizedName (f + 1) s u1 = some (n, s1) ∧
      realizedName (f + 1) s u2 = some (n, s2) := by
  refine ⟨"Union" ++ brack (joinComma (dedupSorted gs1)), ?_, ?_⟩
  · simp [realizedName, h1, hc1, hr1]
  · rw [dedupSorted_ext gs1 gs2 hmem]
    simp [realizedName, h2, hc2, hr2]

/-- Witness store for C10: `int` and `str` classes, and two sealed unions with
the same member set in different orders and multiplicities. -/
def uW : St :=
  ⟨[.cls "int" "int" [] [], .cls "str" "str" [] [], .cls "bool" "bool" [] [],
    .uni [⟨"u", "u", 0, 1⟩, ⟨"u", "u", 1, 2⟩] true,
    .uni [⟨"u", "u", 1, 1⟩, ⟨"u", "u", 0, 2⟩, ⟨"u", "u", 0, 3⟩] true]⟩

theorem C10_union_realizedName_set_witness :
    ∃ n, realizedName 9 uW 3 = some (n, uW) ∧ realizedName 9 uW 4 = some (n, uW) := by
  refine C10_union_realizedName_set 8 uW 3 4 _ _ true true
    ["int", "str"] ["str", "int", "int"] uW uW rfl rfl rfl rfl rfl rfl ?_
  intro x
  constructor
  · intro h
    rcases List.mem_cons.mp h with rfl | h
    · simp
    · simp at h
      simp [h]
  · intro h
    rcases List.mem_cons.mp h with rfl | h
    · simp
    · simp at h
      rcases h with rfl | rfl <;> simp

/-! ### Store lemmas -/

theorem St.get?_lt {s : St} {i : Nat} {m : Node} (h : s.get? i = some m) :
    i < s.nodes.length := by
  by_contra hc
  rw [St.get?, List.getElem?_eq_none (Nat.le_of_not_lt hc)] at h
  exact Option.noConfusion h

theorem St.get?_app {s : St} {n : Node} {i : Nat} {m : Node}
    (h : s.get? i = some m) : (St.mk (s.nodes ++ [n])).get? i = some m := by
  rw [St.get?, List.getElem?_append_left (St.get?_lt h)]
  exact h

theorem St.get?_app_self (s : St) (n : Node) :
    (St.mk (s.nodes ++ [n])).get? s.nodes.length = some n := by
  rw [St.get?]
  exact List.getElem?_concat_length s.nodes n

/-- One instantiation of a record whose two args are the same `Generic` cell:
the cache makes both occurrences the same fresh unbound cell, allocated at
`lvl` with the next counter id. -/
theorem instantiateRecPair (f : Nat) (lvl cnt : Int) (s : St) (R g : Nat)
    (n nn : String) (gid glvl : Int) (ist : Nat) (gn : String)
    (hR : s.get? R = some (.record n nn [] [] [g, g]))
    (hg : s.get? g = some (.link ⟨.generic, gid, glvl, none, ist, none, none, gn⟩)) :
    instantiate (f + 5) lvl R s cnt [] =
      some (s.nodes.length + 1,
        ⟨s.nodes ++ [.link ⟨.unbound, cnt, lvl, none, ist, none, none, gn⟩,
          .record n nn [] [] [s.nodes.length, s.nodes.length]]⟩,
        cnt + 1, [(gid, s.nodes.length)]) := by
  have h1 : (St.mk (s.nodes ++ [Node.link ⟨.unbound, cnt, lvl, none, ist, none, none, gn⟩])).get? g =
      some (.link ⟨.generic, gid, glvl, none, ist, none, none, gn⟩) := St.get?_app hg
  simp [instantiate, instGens, instArgs, cacheFind, hR, hg, h1, St.push, List.append_assoc]

/-- An unbound cell unifies with itself trivially: identical ids, score 1,
no mutation (`LinkType::unify`, types.cpp:96-98). -/
theorem unify_self_unbound (f : Nat) (u : Bool) (s : St) (t : Nat) (c : LinkCell)
    (hT : s.get? t = some (.link c)) (hK : c.kind = .unbound) (l : ULog) :
    unify (f + 4) u t t s l = some (1, s, l) := by
  simp [unify, unifyLink, isStaticType, fNode, follow, hT, hK]

/-- C5: `instantiate` with a per-call cache maps each Generic id to exactly one
fresh Unbound variable at the given level: the two occurrences of the same
generic inside one instantiation become the same fresh unbound cell (allocated
at level `lvl` with the next counter id `cnt`, shared by both argument
positions of the instantiated record, and unifying with itself trivially with
score 1 since the ids are identical), while a second independent `instantiate`
call with a separate cache produces a distinct fresh variable with the
distinct id `cnt + 1`. -/
theorem C5_instantiate_fresh_sharing (f : Nat) (lvl cnt : Int) (s : St) (R g : Nat)
    (n nn : String) (gid glvl : Int) (ist : Nat) (gn : String)
    (hR : s.get? R = some (.record n nn [] [] [g, g]))
    (hg : s.get? g = some (.link ⟨.generic, gid, glvl, none, ist, none, none, gn⟩)) :
    instantiate (f + 5) lvl R s cnt [] =
      some (s.nodes.length + 1,
        ⟨s.nodes ++ [.link ⟨.unbound, cnt, lvl, none, ist, none, none, gn⟩,
          .record n nn [] [] [s.nodes.length, s.nodes.length]]⟩,
        cnt + 1, [(gid, s.nodes.length)]) ∧
    (∀ f2 u l,
      unify (f2 + 4) u s.nodes.length s.nodes.length
        ⟨s.nodes ++ [.link ⟨.unbound, cnt, lvl, none, ist, none, none, gn⟩,
          .record n nn [] [] [s.nodes.length, s.nodes.length]]⟩ l =
        some (1, ⟨s.nodes ++ [.link ⟨.unbound, cnt, lvl, none, ist, none, none, gn⟩,
          .record n nn [] [] [s.nodes.length, s.nodes.length]]⟩, l)) ∧
    (∀ f2, instantiate (f2 + 5) lvl R
        ⟨s.nodes ++ [.link ⟨.unbound, cnt, lvl, none, ist, none, none, gn⟩,
          .record n nn [] [] [s.nodes.length, s.nodes.length]]⟩ (cnt + 1) [] =
      some (s.nodes.length + 3,
        ⟨(s.nodes ++ [.link ⟨.unbound, cnt, lvl, none, ist, none, none, gn⟩,
            .record n nn [] [] [s.nodes.length, s.nodes.length]]) ++
          [.link ⟨.unbound, cnt + 1, lvl, none, ist, none, none, gn⟩,
            .record n nn [] [] [s.nodes.length + 2, s.nodes.length + 2]]⟩,
        cnt + 2, [(gid, s.nodes.length + 2)])) ∧
    (cnt + 1 : Int) ≠ cnt := by
  have key := instantiateRecPair f lvl cnt s R g n nn gid glvl ist gn hR hg
  set s2 : St := ⟨s.nodes ++ [.link ⟨.unbound, cnt, lvl, none, ist, none, none, gn⟩,
    .record n nn [] [] [s.nodes.length, s.nodes.length]]⟩ with hs2
  have hcell : s2.get? s.nodes.length = some (.link ⟨.unbound, cnt, lvl, none, ist, none, none, gn⟩) := by
    rw [hs2, St.get?]
    rw [show s.nodes ++ [Node.link ⟨.unbound, cnt, lvl, none, ist, none, none, gn⟩,
      Node.record n nn [] [] [s.nodes.length, s.nodes.length]] =
      (s.nodes ++ [Node.link ⟨.unbound, cnt, lvl, none, ist, none, none, gn⟩]) ++
      [Node.record n nn [] [] [s.nodes.length, s.nodes.length]] by simp]
    rw [List.getElem?_append_left (by simp)]
    exact List.getElem?_concat_length s.nodes _
  have hR2 : s2.get? R = some (.record n nn [] [] [g, g]) := by
    rw [hs2, St.get?, List.getElem?_append_left (St.get?_lt hR)]
    exact hR
  have hg2 : s2.get? g = some (.link ⟨.generic, gid, glvl, none, ist, none, none, gn⟩) := by
    rw [hs2, St.get?, List.getElem?_append_left (St.get?_lt hg)]
    exact hg
  refine ⟨key, fun f2 u l => unify_self_unbound f2 u s2 s.nodes.length _ hcell rfl l, fun f2 => ?_, by omega⟩
  have key2 := instantiateRecPair f2 lvl (cnt + 1) s2 R g n nn gid glvl ist gn hR2 hg2
  have hlen : s2.nodes.length = s.nodes.length + 2 := by
    rw [hs2]
    simp
  rw [key2, hlen]
  norm_num
  omega

/-- Witness store for C5: a record with the same generic in both arg slots. -/
def iW : St :=
  ⟨[.record "P" "P" [] [] [1, 1], .link ⟨.generic, 7, 0, none, 0, none, none, "T"⟩]⟩

theorem C5_instantiate_fresh_sharing_witness :
    instantiate 5 3 0 iW 10 [] =
      some (3, ⟨iW.nodes ++ [.link ⟨.unbound, 10, 3, none, 0, none, none, "T"⟩,
        .record "P" "P" [] [] [2, 2]]⟩, 11, [(7, 2)]) ∧
    (∀ f2 u l,
      unify (f2 + 4) u 2 2 ⟨iW.nodes ++ [.link ⟨.unbound, 10, 3, none, 0, none, none, "T"⟩,
        .record "P" "P" [] [] [2, 2]]⟩ l =
      some (1, ⟨iW.nodes ++ [.link ⟨.unbound, 10, 3, none, 0, none, none, "T"⟩,
        .record "P" "P" [] [] [2, 2]]⟩, l)) ∧
    (∀ f2, instantiate (f2 + 5) 3 0 ⟨iW.nodes ++ [.link ⟨.unbound, 10, 3, none, 0, none, none, "T"⟩,
        .record "P" "P" [] [] [2, 2]]⟩ 11 [] =
      some (5, ⟨(iW.nodes ++ [.link ⟨.unbound, 10, 3, none, 0, none, none, "T"⟩,
          .record "P" "P" [] [] [2, 2]]) ++
        [.link ⟨.unbound, 11, 3, none, 0, none, none, "T"⟩,
          .record "P" "P" [] [] [4, 4]]⟩, 12, [(7, 4)])) ∧
    (11 : Int) ≠ 10 :=
  C5_instantiate_fresh_sharing 0 3 10 iW 0 1 "P" "P" 7 0 0 "T" rfl rfl

/-- Counterexample store for C2: index 0 a class `int`; index 1 an unbound
variable with the lower id 3 and no trait; index 2 an unbound variable with
the higher id 5 carrying a `TypeTrait` whose inner type is the class at 0. -/
def c2s : St :=
  ⟨[.cls "int" "int" [] [],
    .link ⟨.unbound, 3, 0, none, 0, none, none, ""⟩,
    .link ⟨.unbound, 5, 0, none, 0, some 0, none, ""⟩]⟩

/-- C2 counterexample: unifying the two unbound variables with distinct ids 3
and 5 SUCCEEDS (score 0), yet the lower-id variable does not stay Unbound: the
trait check of the higher-id variable (`trait->unify(typ, undo)`,
types.cpp:110) binds the lower-id variable to the trait's inner type, and the
higher-id variable then links to that type rather than to the lower-id
variable.  This refutes the claim that a successful unification of two
distinct-id unbound variables always leaves the lower-id one Unbound with the
higher-id one linked to it. -/
theorem C2_counterexample :
    (unify 20 true 1 2 c2s ULog.empty).map
        (fun r => (r.1, r.2.1.get? 1, r.2.1.get? 2)) =
      some (0,
        some (.link ⟨.link, 3, 0, some 0, 0, none, none, ""⟩),
        some (.link ⟨.link, 5, 0, some 0, 0, some 0, none, ""⟩)) := by
  rfl

/-- C2 amended: for two Unbound link variables with equal static-ness tags:
with equal ids, unification trivially succeeds with score 1 and mutates
neither variable; with distinct ids, provided the higher-id variable carries
no trait, a successful unification always turns the higher-id variable into a
Link whose target is the lower-id variable (which stays Unbound; only its
scope level may be lowered to the higher-id variable's level), in either
argument order, with the binding and any level change recorded in the undo
log. -/
theorem C2_amended_lower_id_wins (s : St) (i j : Nat) (idi lvi idj lvj : Int)
    (tgi tgj : Option Nat) (sti : Nat) (tri : Option Nat) (dfi dfj : Option Nat)
    (gni gnj : String) (l : ULog)
    (hi : s.get? i = some (.link ⟨.unbound, idi, lvi, tgi, sti, tri, dfi, gni⟩))
    (hj : s.get? j = some (.link ⟨.unbound, idj, lvj, tgj, sti, none, dfj, gnj⟩)) :
    (idi = idj → ∀ f, unify (f + 4) true i j s l = some (1, s, l)) ∧
    (idi < idj → ∀ f,
      unify (f + 6) true i j s l =
        some (0,
          (if lvj < lvi then s.set i (.link ⟨.unbound, idi, lvj, tgi, sti, tri, dfi, gni⟩) else s).set j
            (.link ⟨.link, idj, lvj, some i, sti, none, dfj, gnj⟩),
          (if lvj < lvi then l.pushLeveled i lvi else l).pushLinked j) ∧
      unify (f + 6) true j i s l =
        some (0,
          (if lvj < lvi then s.set i (.link ⟨.unbound, idi, lvj, tgi, sti, tri, dfi, gni⟩) else s).set j
            (.link ⟨.link, idj, lvj, some i, sti, none, dfj, gnj⟩),
          (if lvj < lvi then l.pushLeveled i lvi else l).pushLinked j)) := by
  constructor
  · intro heq f
    simp [unify, unifyLink, isStaticType, fNode, follow, hi, hj, heq]
  · intro hlt f
    have hij : i ≠ j := by
      intro h
      rw [h, hj] at hi
      simp at hi
      rw [hi.1] at hlt
      exact lt_irrefl _ hlt
    have hne1 : ¬idi = idj := ne_of_lt hlt
    have hne2 : ¬idj = idi := ne_of_gt hlt
    have F1 : (s.set i (.link ⟨.unbound, idi, lvj, tgi, sti, tri, dfi, gni⟩)).get? j =
        some (.link ⟨.unbound, idj, lvj, tgj, sti, none, dfj, gnj⟩) := by
      rw [St.get?, St.set, List.getElem?_set_ne hij]
      exact hj
    have F2 : (s.set i (.link ⟨.unbound, idi, lvj, tgi, sti, tri, dfi, gni⟩)).get? i =
        some (.link ⟨.unbound, idi, lvj, tgi, sti, tri, dfi, gni⟩) := by
      rw [St.get?, St.set, List.getElem?_set_self (St.get?_lt hi)]
    have F3 : ((s.set i (.link ⟨.unbound, idi, lvj, tgi, sti, tri, dfi, gni⟩)).set j
          (.link ⟨.link, idj, lvj, some i, sti, none, dfj, gnj⟩)).get? i =
        some (.link ⟨.unbound, idi, lvj, tgi, sti, tri, dfi, gni⟩) := by
      rw [St.get?, St.set, List.getElem?_set_ne (Ne.symm hij)]
      exact F2
    have F4 : (s.set j (.link ⟨.link, idj, lvj, some i, sti, none, dfj, gnj⟩)).get? i =
        some (.link ⟨.unbound, idi, lvi, tgi, sti, tri, dfi, gni⟩) := by
      rw [St.get?, St.set, List.getElem?_set_ne (Ne.symm hij)]
      exact hi
    constructor
    · by_cases hlv : lvj < lvi
      · simp [unify, unifyLink, unifyBind, isStaticType, fNode, follow, occurs, hi, hj,
          hne1, hne2, hlt, not_lt_of_lt hlt, hlv, F1, F2, F3]
      · simp [unify, unifyLink, unifyBind, isStaticType, fNode, follow, occurs, hi, hj,
          hne1, hne2, hlt, not_lt_of_lt hlt, hlv, F4]
    · by_cases hlv : lvj < lvi
      · simp [unify, unifyLink, unifyBind, isStaticType, fNode, follow, occurs, hi, hj,
          hne1, hne2, hlt, not_lt_of_lt hlt, hlv, F1, F2, F3]
      · simp [unify, unifyLink, unifyBind, isStaticType, fNode, follow, occurs, hi, hj,
          hne1, hne2, hlt, not_lt_of_lt hlt, hlv, F4]

/-- Witness store for the amended C2: two trait-free unbound variables with
ids 1 (level 5) and 2 (level 3). -/
def c2w : St :=
  ⟨[.link ⟨.unbound, 1, 5, none, 0, none, none, "a"⟩,
    .link ⟨.unbound, 2, 3, none, 0, none, none, "b"⟩]⟩

theorem C2_amended_lower_id_wins_witness :
    ((1 : Int) = 2 → ∀ f, unify (f + 4) true 0 1 c2w ULog.empty = some (1, c2w, ULog.empty)) ∧
    ((1 : Int) < 2 → ∀ f,
      unify (f + 6) true 0 1 c2w ULog.empty =
        some (0,
          (if (3 : Int) < 5 then c2w.set 0 (.link ⟨.unbound, 1, 3, none, 0, none, none, "a"⟩) else c2w).set 1
            (.link ⟨.link, 2, 3, some 0, 0, none, none, "b"⟩),
          (if (3 : Int) < 5 then ULog.empty.pushLeveled 0 5 else ULog.empty).pushLinked 1) ∧
      unify (f + 6) true 1 0 c2w ULog.empty =
        some (0,
          (if (3 : Int) < 5 then c2w.set 0 (.link ⟨.unbound, 1, 3, none, 0, none, none, "a"⟩) else c2w).set 1
            (.link ⟨.link, 2, 3, some 0, 0, none, none, "b"⟩),
          (if (3 : Int) < 5 then ULog.empty.pushLeveled 0 5 else ULog.empty).pushLinked 1)) :=
  C2_amended_lower_id_wins c2w 0 1 1 5 2 3 none none 0 none none none "a" "b" ULog.empty rfl rfl

/-! ### C3: the occurs check -/

/-- Normalize a node by forgetting link levels (the only field `occurs`
mutates). -/
def nShape : Node → Node
  | .link c => .link { c with level := 0 }
  | n => n

/-- Two stores with the same nodes up to link levels. -/
def ShapeEq (s s2 : St) : Prop :=
  ∀ i, (s.get? i).map nShape = (s2.get? i).map nShape

theorem ShapeEq.refl (s : St) : ShapeEq s s := fun _ => rfl

theorem ShapeEq.trans {s1 s2 s3 : St} (h1 : ShapeEq s1 s2) (h2 : ShapeEq s2 s3) :
    ShapeEq s1 s3 := fun i => (h1 i).trans (h2 i)

theorem ShapeEq.set_level {s s2 : St} (h : ShapeEq s s2) (t : Nat) (c : LinkCell)
    (lv : Int) (ht : s2.get? t = some (.link c)) :
    ShapeEq s (s2.set t (.link { c with level := lv })) := by
  intro i
  by_cases hit : i = t
  · subst hit
    rw [h i, ht]
    simp only [St.get?, St.set]
    rw [List.getElem?_set_self (St.get?_lt ht)]
    rfl
  · rw [h i]
    simp only [St.get?, St.set]
    rw [List.getElem?_set_ne (fun he => hit he.symm)]

/-- On a shape-equal store, a non-link node is found unchanged. -/
theorem ShapeEq.get_nonlink {s s2 : St} (h : ShapeEq s s2) {i : Nat} {n : Node}
    (hn : s.get? i = some n) (hnl : ∀ c, n ≠ .link c) : s2.get? i = some n := by
  have hh := h i
  rw [hn] at hh
  match hs2 : s2.get? i with
  | none => rw [hs2] at hh; exact absurd hh (by simp)
  | some m =>
    rw [hs2] at hh
    simp only [Option.map] at hh
    cases n with
    | link c => exact absurd rfl (hnl c)
    | cls a b cc d => cases m <;> simp_all [nShape]
    | record a b cc d e => cases m <;> simp_all [nShape]
    | uni a b => cases m <;> simp_all [nShape]
    | sta a b cc d => cases m <;> simp_all [nShape]

/-- On a shape-equal store, a link cell is found with the same shape (level
possibly different). -/
theorem ShapeEq.get_link {s s2 : St} (h : ShapeEq s s2) {i : Nat} {c : LinkCell}
    (hc : s.get? i = some (.link c)) :
    ∃ lv, s2.get? i = some (.link { c with level := lv }) := by
  have hh := h i
  rw [hc] at hh
  match hs2 : s2.get? i with
  | none => rw [hs2] at hh; exact absurd hh (by simp)
  | some m =>
    rw [hs2] at hh
    simp only [Option.map] at hh
    cases m with
    | link c2 =>
      refine ⟨c2.level, ?_⟩
      simp only [nShape, Node.link.injEq] at hh
      have he : c2 = { c with level := c2.level } := by
        cases c; cases c2
        simp_all
      rw [← he]
    | cls a b cc d => simp [nShape] at hh
    | record a b cc d e => simp [nShape] at hh
    | uni a b => simp [nShape] at hh
    | sta a b cc d => simp [nShape] at hh

/-- The `occurs` family only lowers levels: its output store is shape-equal
to its input store. -/
theorem occurs_shape : ∀ f : Nat,
    (∀ (u : Bool) (tid lv : Int) (t : Nat) (s : St) (l : ULog) (b : Bool) (s2 : St)
      (l2 : ULog), occurs f u tid lv t s l = some (b, s2, l2) → ShapeEq s s2) ∧
    (∀ (u : Bool) (tid lv : Int) (gl : List Generic) (s : St) (l : ULog) (b : Bool)
      (s2 : St) (l2 : ULog), occursGens f u tid lv gl s l = some (b, s2, l2) → ShapeEq s s2) ∧
    (∀ (u : Bool) (tid lv : Int) (al : List Nat) (s : St) (l : ULog) (b : Bool)
      (s2 : St) (l2 : ULog), occursArgs f u tid lv al s l = some (b, s2, l2) → ShapeEq s s2) := by
  intro f
  induction f with
  | zero =>
    refine ⟨fun _ _ _ _ _ _ _ _ _ h => ?_, fun _ _ _ _ _ _ _ _ _ h => ?_,
      fun _ _ _ _ _ _ _ _ _ h => ?_⟩ <;> simp [occurs, occursGens, occursArgs] at h
  | succ f ih =>
    obtain ⟨ihO, ihG, ihA⟩ := ih
    refine ⟨fun u tid lv t s l b s2 l2 h => ?_, fun u tid lv gl s l b s2 l2 h => ?_,
      fun u tid lv al s l b s2 l2 h => ?_⟩
    · rw [occurs] at h
      split at h
      · split at h
        · split at h
          · simp only [Option.some.injEq, Prod.mk.injEq] at h
            rw [← h.2.1]; exact ShapeEq.refl s
          · split at h
            · simp only [Option.some.injEq, Prod.mk.injEq] at h
              rw [← h.2.1]
              exact (ShapeEq.refl s).set_level t _ lv (by assumption)
            · simp only [Option.some.injEq, Prod.mk.injEq] at h
              rw [← h.2.1]; exact ShapeEq.refl s
        · split at h
          · exact ihO _ _ _ _ _ _ _ _ _ h
          · exact absurd h (by simp)
        · simp only [Option.some.injEq, Prod.mk.injEq] at h
          rw [← h.2.1]; exact ShapeEq.refl s
      · exact ihG _ _ _ _ _ _ _ _ _ h
      · exact ihG _ _ _ _ _ _ _ _ _ h
      · split at h
        · simp only [Option.some.injEq, Prod.mk.injEq] at h
          rename_i hx
          rw [← h.2.1]
          exact ihG _ _ _ _ _ _ _ _ _ hx
        · rename_i hx
          exact (ihG _ _ _ _ _ _ _ _ _ hx).trans (ihA _ _ _ _ _ _ _ _ _ h)
        · exact absurd h (by simp)
      · exact ihG _ _ _ _ _ _ _ _ _ h
      · exact absurd h (by simp)
    · cases gl with
      | nil =>
        rw [occursGens] at h
        simp only [Option.some.injEq, Prod.mk.injEq] at h
        rw [← h.2.1]; exact ShapeEq.refl s
      | cons g gs =>
        rw [occursGens] at h
        split at h
        · simp only [Option.some.injEq, Prod.mk.injEq] at h
          rename_i hx
          rw [← h.2.1]
          exact ihO _ _ _ _ _ _ _ _ _ hx
        · rename_i hx
          exact (ihO _ _ _ _ _ _ _ _ _ hx).trans (ihG _ _ _ _ _ _ _ _ _ h)
        · exact absurd h (by simp)
    · cases al with
      | nil =>
        rw [occursArgs] at h
        simp only [Option.some.injEq, Prod.mk.injEq] at h
        rw [← h.2.1]; exact ShapeEq.refl s
      | cons a as_ =>
        rw [occursArgs] at h
        split at h
        · simp only [Option.some.injEq, Prod.mk.injEq] at h
          rename_i hx
          rw [← h.2.1]
          exact ihO _ _ _ _ _ _ _ _ _ hx
        · rename_i hx
          exact (ihO _ _ _ _ _ _ _ _ _ hx).trans (ihA _ _ _ _ _ _ _ _ _ h)
        · exact absurd h (by simp)

/-- The unbound variable with id `tid` occurs inside `t`: reachability
through resolved links, class generics, record generics and args, union
generics, and static generics — exactly the positions `LinkType::occurs`
scans (hidden generics are not scanned, and are not included here). -/
inductive Reaches (s : St) (tid : Int) : Nat → Prop
  | self (t : Nat) (c : LinkCell) :
      s.get? t = some (.link c) → c.kind = .unbound → c.id = tid → Reaches s tid t
  | via_link (t v : Nat) (c : LinkCell) :
      s.get? t = some (.link c) → c.kind = .link → c.target = some v →
      Reaches s tid v → Reaches s tid t
  | via_cls (t : Nat) (n nn : String) (g h : List Generic) (gen : Generic) :
      s.get? t = some (.cls n nn g h) → gen ∈ g → Reaches s tid gen.ty →
      Reaches s tid t
  | via_rec_gen (t : Nat) (n nn : String) (g h : List Generic) (a : List Nat)
      (gen : Generic) :
      s.get? t = some (.record n nn g h a) → gen ∈ g → Reaches s tid gen.ty →
      Reaches s tid t
  | via_rec_arg (t : Nat) (n nn : String) (g h : List Generic) (a : List Nat)
      (x : Nat) :
      s.get? t = some (.record n nn g h a) → x ∈ a → Reaches s tid x →
      Reaches s tid t
  | via_uni (t : Nat) (g : List Generic) (se : Bool) (gen : Generic) :
      s.get? t = some (.uni g se) → gen ∈ g → Reaches s tid gen.ty →
      Reaches s tid t
  | via_sta (t : Nat) (g : List Generic) (e : SExpr) (st : Nat) (sv : Option SVal)
      (gen : Generic) :
      s.get? t = some (.sta g e st sv) → gen ∈ g → Reaches s tid gen.ty →
      Reaches s tid t

/-- If the occurring variable is reachable from some generic in the list,
the `occursGens` scan reports true whenever it returns. -/
theorem occursGens_mem_true (s : St) (tid : Int) (gty : Nat)
    (IH : ∀ (s3 : St) (f : Nat) (u : Bool) (lv : Int) (l : ULog) (b : Bool)
      (s2 : St) (l2 : ULog), ShapeEq s s3 →
      occurs f u tid lv gty s3 l = some (b, s2, l2) → b = true) :
    ∀ (gl : List Generic), (∃ gen ∈ gl, gen.ty = gty) →
      ∀ (s3 : St) (f : Nat) (u : Bool) (lv : Int) (l : ULog) (b : Bool) (s2 : St)
        (l2 : ULog), ShapeEq s s3 →
        occursGens f u tid lv gl s3 l = some (b, s2, l2) → b = true := by
  intro gl
  induction gl with
  | nil =>
    rintro ⟨gen, hmem, _⟩
    exact absurd hmem (List.not_mem_nil _)
  | cons g gs ihl =>
    rintro ⟨gen, hmem, hgty⟩ s3 f u lv l b s2 l2 hse hocc
    cases f with
    | zero => exact absurd hocc (by simp [occursGens])
    | succ f =>
      rw [occursGens] at hocc
      split at hocc
      · simp only [Option.some.injEq, Prod.mk.injEq] at hocc
        exact hocc.1.symm
      · rename_i s1 l1 hx
        rcases List.mem_cons.mp hmem with rfl | hmem2
        · exact absurd (IH s3 f u lv l false s1 l1 hse (hgty ▸ hx)) (by simp)
        · exact ihl ⟨gen, hmem2, hgty⟩ s1 f u lv l1 b s2 l2
            (hse.trans ((occurs_shape f).1 _ _ _ _ _ _ _ _ _ hx)) hocc
      · exact absurd hocc (by simp)

/-- If the occurring variable is reachable from some member of the arg list,
the `occursArgs` scan reports true whenever it returns. -/
theorem occursArgs_mem_true (s : St) (tid : Int) (gty : Nat)
    (IH : ∀ (s3 : St) (f : Nat) (u : Bool) (lv : Int) (l : ULog) (b : Bool)
      (s2 : St) (l2 : ULog), ShapeEq s s3 →
      occurs f u tid lv gty s3 l = some (b, s2, l2) → b = true) :
    ∀ (al : List Nat), gty ∈ al →
      ∀ (s3 : St) (f : Nat) (u : Bool) (lv : Int) (l : ULog) (b : Bool) (s2 : St)
        (l2 : ULog), ShapeEq s s3 →
        occursArgs f u tid lv al s3 l = some (b, s2, l2) → b = true := by
  intro al
  induction al with
  | nil =>
    intro hmem
    exact absurd hmem (List.not_mem_nil _)
  | cons a as_ ihl =>
    intro hmem s3 f u lv l b s2 l2 hse hocc
    cases f with
    | zero => exact absurd hocc (by simp [occursArgs])
    | succ f =>
      rw [occursArgs] at hocc
      split at hocc
      · simp only [Option.some.injEq, Prod.mk.injEq] at hocc
        exact hocc.1.symm
      · rename_i s1 l1 hx
        rcases List.mem_cons.mp hmem with rfl | hmem2
        · exact absurd (IH s3 f u lv l false s1 l1 hse hx) (by simp)
        · exact ihl hmem2 s1 f u lv l1 b s2 l2
            (hse.trans ((occurs_shape f).1 _ _ _ _ _ _ _ _ _ hx)) hocc
      · exact absurd hocc (by simp)

/-- Soundness of the occurs check against reachability: whenever the variable
with id `tid` is reachable inside `t` (through class generics, record
generics/args, union generics, static generics or resolved links) and
`occurs` returns, it returns true. -/
theorem Reaches_occurs {s : St} {tid : Int} {t : Nat} (h : Reaches s tid t) :
    ∀ (s3 : St) (f : Nat) (u : Bool) (lv : Int) (l : ULog) (b : Bool) (s2 : St)
      (l2 : ULog), ShapeEq s s3 →
      occurs f u tid lv t s3 l = some (b, s2, l2) → b = true := by
  induction h with
  | self t c hn hk hid =>
    intro s3 f u lv l b s2 l2 hse hocc
    obtain ⟨lv2, hn3⟩ := hse.get_link hn
    cases f with
    | zero => exact absurd hocc (by simp [occurs])
    | succ f =>
      rw [occurs, hn3] at hocc
      simp [hk, hid] at hocc
      exact hocc.1
  | via_link t v c hn hk ht _ ih =>
    intro s3 f u lv l b s2 l2 hse hocc
    obtain ⟨lv2, hn3⟩ := hse.get_link hn
    cases f with
    | zero => exact absurd hocc (by simp [occurs])
    | succ f =>
      rw [occurs, hn3] at hocc
      simp only [hk, ht] at hocc
      exact ih s3 f u lv l b s2 l2 hse hocc
  | via_cls t n nn g hh gen hn hmem _ ih =>
    intro s3 f u lv l b s2 l2 hse hocc
    have hn3 := hse.get_nonlink hn (by intro c; simp)
    cases f with
    | zero => exact absurd hocc (by simp [occurs])
    | succ f =>
      rw [occurs, hn3] at hocc
      exact occursGens_mem_true s tid gen.ty ih g ⟨gen, hmem, rfl⟩ s3 f u lv l b s2 l2 hse hocc
  | via_rec_gen t n nn g hh a gen hn hmem _ ih =>
    intro s3 f u lv l b s2 l2 hse hocc
    have hn3 := hse.get_nonlink hn (by intro c; simp)
    cases f with
    | zero => exact absurd hocc (by simp [occurs])
    | succ f =>
      rw [occurs, hn3] at hocc
      simp only at hocc
      split at hocc
      · simp only [Option.some.injEq, Prod.mk.injEq] at hocc
        exact hocc.1.symm
      · rename_i s1 l1 hx
        exact absurd
          (occursGens_mem_true s tid gen.ty ih g ⟨gen, hmem, rfl⟩ s3 f u lv l false s1 l1 hse hx)
          (by simp)
      · exact absurd hocc (by simp)
  | via_rec_arg t n nn g hh a x hn hmem _ ih =>
    intro s3 f u lv l b s2 l2 hse hocc
    have hn3 := hse.get_nonlink hn (by intro c; simp)
    cases f with
    | zero => exact absurd hocc (by simp [occurs])
    | succ f =>
      rw [occurs, hn3] at hocc
      simp only at hocc
      split at hocc
      · simp only [Option.some.injEq, Prod.mk.injEq] at hocc
        exact hocc.1.symm
      · rename_i s1 l1 hx
        exact occursArgs_mem_true s tid x ih a hmem s1 f u lv l1 b s2 l2
          (hse.trans ((occurs_shape f).2.1 _ _ _ _ _ _ _ _ _ hx)) hocc
      · exact absurd hocc (by simp)
  | via_uni t g se gen hn hmem _ ih =>
    intro s3 f u lv l b s2 l2 hse hocc
    have hn3 := hse.get_nonlink hn (by intro c; simp)
    cases f with
    | zero => exact absurd hocc (by simp [occurs])
    | succ f =>
      rw [occurs, hn3] at hocc
      exact occursGens_mem_true s tid gen.ty ih g ⟨gen, hmem, rfl⟩ s3 f u lv l b s2 l2 hse hocc
  | via_sta t g e st sv gen hn hmem _ ih =>
    intro s3 f u lv l b s2 l2 hse hocc
    have hn3 := hse.get_nonlink hn (by intro c; simp)
    cases f with
    | zero => exact absurd hocc (by simp [occurs])
    | succ f =>
      rw [occurs, hn3] at hocc
      exact occursGens_mem_true s tid gen.ty ih g ⟨gen, hmem, rfl⟩ s3 f u lv l b s2 l2 hse hocc

/-- The static-ness a node reports through `isStaticType`. -/
def nodeStat : Node → Nat
  | .sta _ _ st _ => st
  | _ => 0

theorem follow_node {s : St} {C : Nat} {n : Node} (hC : s.get? C = some n)
    (hnl : ∀ c, n ≠ .link c) (f : Nat) : follow (f + 1) s C = some C := by
  rw [follow, hC]
  cases n with
  | link c => exact absurd rfl (hnl c)
  | cls a b cc d => rfl
  | record a b cc d e => rfl
  | uni a b => rfl
  | sta a b cc d => rfl

theorem fNode_node {s : St} {C : Nat} {n : Node} (hC : s.get? C = some n)
    (hnl : ∀ c, n ≠ .link c) (f : Nat) : fNode (f + 1) s C = some (C, n) := by
  simp [fNode, follow_node hC hnl f, hC]

theorem isStaticType_node {s : St} {C : Nat} {n : Node} (hC : s.get? C = some n)
    (hnl : ∀ c, n ≠ .link c) (f : Nat) : isStaticType (f + 1) s C = some (nodeStat n) := by
  rw [isStaticType, fNode_node hC hnl f]
  cases n with
  | link c => exact absurd rfl (hnl c)
  | cls a b cc d => rfl
  | record a b cc d e => rfl
  | uni a b => rfl
  | sta a b cc d => rfl

theorem follow_stop {s : St} {t : Nat} {c : LinkCell} (ht : s.get? t = some (.link c))
    (hknl : c.kind ≠ .link) (f : Nat) : follow (f + 1) s t = some t := by
  rw [follow, ht]
  rcases hk : c.kind with _ | _ | _
  · simp [hk]
  · simp [hk]
  · exact absurd hk hknl

theorem fNode_stop {s : St} {t : Nat} {c : LinkCell} (ht : s.get? t = some (.link c))
    (hknl : c.kind ≠ .link) (f : Nat) : fNode (f + 1) s t = some (t, .link c) := by
  simp [fNode, follow_stop ht hknl f, ht]

theorem isStaticType_stop {s : St} {t : Nat} {c : LinkCell}
    (ht : s.get? t = some (.link c)) (hknl : c.kind ≠ .link) (f : Nat) :
    isStaticType (f + 1) s t = some c.isStat := by
  rw [isStaticType, fNode_stop ht hknl f]

/-- Unifying an unbound variable with itself: whenever it returns, the result
is score 1 with no mutation. -/
theorem unify_self_inv {s : St} {t : Nat} {ti : LinkCell}
    (ht : s.get? t = some (.link ti)) (hk : ti.kind = .unbound) :
    ∀ (f : Nat) (u : Bool) (l : ULog) (r : Int) (s2 : St) (l2 : ULog),
      unify f u t t s l = some (r, s2, l2) → (r, s2, l2) = (1, s, l) := by
  intro f u l r s2 l2 hu
  have hknl : ti.kind ≠ .link := by rw [hk]; intro hx; exact TKind.noConfusion hx
  cases f with
  | zero => exact absurd hu (by simp [unify])
  | succ f =>
    rw [unify, ht] at hu
    cases f with
    | zero => exact absurd hu (by simp [unifyLink])
    | succ f =>
      rw [unifyLink, ht] at hu
      simp only [hk] at hu
      cases f with
      | zero => exact absurd hu (by simp [isStaticType, fNode, follow])
      | succ f =>
        rw [isStaticType_stop ht hknl f, fNode_stop ht hknl f] at hu
        simp [ht, hk] at hu
        simp_all

/-- The containing structural types of the amended C3: a class, record or
union containing the variable through a generic (or a record arg), or a
static whose expression is not a plain identifier containing it through a
dependent generic. -/
inductive Container (s : St) (tid : Int) : Nat → Prop
  | cls (C : Nat) (n nn : String) (g h : List Generic) (gen : Generic) :
      s.get? C = some (.cls n nn g h) → gen ∈ g → Reaches s tid gen.ty →
      Container s tid C
  | rec_gen (C : Nat) (n nn : String) (g h : List Generic) (a : List Nat)
      (gen : Generic) :
      s.get? C = some (.record n nn g h a) → gen ∈ g → Reaches s tid gen.ty →
      Container s tid C
  | rec_arg (C : Nat) (n nn : String) (g h : List Generic) (a : List Nat) (x : Nat) :
      s.get? C = some (.record n nn g h a) → x ∈ a → Reaches s tid x →
      Container s tid C
  | uni (C : Nat) (g : List Generic) (se : Bool) (gen : Generic) :
      s.get? C = some (.uni g se) → gen ∈ g → Reaches s tid gen.ty →
      Container s tid C
  | sta (C : Nat) (g : List Generic) (e : SExpr) (st : Nat) (sv : Option SVal)
      (gen : Generic) :
      s.get? C = some (.sta g e st sv) → e.isId = false → gen ∈ g →
      Reaches s tid gen.ty → Container s tid C

theorem Container_node {s : St} {tid : Int} {C : Nat} (h : Container s tid C) :
    ∃ n, s.get? C = some n ∧ (∀ c, n ≠ .link c) ∧
      (∀ g nm st sv, n ≠ .sta g (.eid nm) st sv) := by
  cases h with
  | cls n nn g hh gen hC _ _ => exact ⟨_, hC, by intro c; simp, by intro a b c d; simp⟩
  | rec_gen n nn g hh a gen hC _ _ => exact ⟨_, hC, by intro c; simp, by intro a b c d; simp⟩
  | rec_arg n nn g hh a x hC _ _ => exact ⟨_, hC, by intro c; simp, by intro a b c d; simp⟩
  | uni g se gen hC _ _ => exact ⟨_, hC, by intro c; simp, by intro a b c d; simp⟩
  | sta g e st sv gen hC hne _ _ =>
    refine ⟨_, hC, by intro c; simp, ?_⟩
    intro g2 nm st2 sv2 heq
    rw [heq] at hC
    cases e with
    | eid m => simp [SExpr.isId] at hne
    | lit v => simp at heq
    | bin o a b => simp at heq

/-- A `Container` makes the occurs check fire: whenever `occurs` returns on
it, it returns true. -/
theorem Container_occurs_true {s : St} {tid : Int} {C : Nat} (h : Container s tid C) :
    ∀ (f : Nat) (u : Bool) (lv : Int) (l : ULog) (b : Bool) (s2 : St) (l2 : ULog),
      occurs f u tid lv C s l = some (b, s2, l2) → b = true := by
  intro f u lv l b s2 l2 hocc
  cases h with
  | cls n nn g hh gen hC hmem hre =>
    cases f with
    | zero => exact absurd hocc (by simp [occurs])
    | succ f =>
      rw [occurs, hC] at hocc
      exact occursGens_mem_true s tid gen.ty (Reaches_occurs hre) g ⟨gen, hmem, rfl⟩
        s f u lv l b s2 l2 (ShapeEq.refl s) hocc
  | rec_gen n nn g hh a gen hC hmem hre =>
    cases f with
    | zero => exact absurd hocc (by simp [occurs])
    | succ f =>
      rw [occurs, hC] at hocc
      simp only at hocc
      split at hocc
      · simp only [Option.some.injEq, Prod.mk.injEq] at hocc
        exact hocc.1.symm
      · rename_i s1 l1 hx
        exact absurd (occursGens_mem_true s tid gen.ty (Reaches_occurs hre) g
          ⟨gen, hmem, rfl⟩ s f u lv l false s1 l1 (ShapeEq.refl s) hx) (by simp)
      · exact absurd hocc (by simp)
  | rec_arg n nn g hh a x hC hmem hre =>
    cases f with
    | zero => exact absurd hocc (by simp [occurs])
    | succ f =>
      rw [occurs, hC] at hocc
      simp only at hocc
      split at hocc
      · simp only [Option.some.injEq, Prod.mk.injEq] at hocc
        exact hocc.1.symm
      · rename_i s1 l1 hx
        exact occursArgs_mem_true s tid x (Reaches_occurs hre) a hmem s1 f u lv l1 b s2 l2
          ((occurs_shape f).2.1 _ _ _ _ _ _ _ _ _ hx) hocc
      · exact absurd hocc (by simp)
  | uni g se gen hC hmem hre =>
    cases f with
    | zero => exact absurd hocc (by simp [occurs])
    | succ f =>
      rw [occurs, hC] at hocc
      exact occursGens_mem_true s tid gen.ty (Reaches_occurs hre) g ⟨gen, hmem, rfl⟩
        s f u lv l b s2 l2 (ShapeEq.refl s) hocc
  | sta g e st sv gen hC hne hmem hre =>
    cases f with
    | zero => exact absurd hocc (by simp [occurs])
    | succ f =>
      rw [occurs, hC] at hocc
      exact occursGens_mem_true s tid gen.ty (Reaches_occurs hre) g ⟨gen, hmem, rfl⟩
        s f u lv l b s2 l2 (ShapeEq.refl s) hocc

/-- The binding tail fails on any `Container`: the occurs check fires. -/
theorem unifyBind_container_fails {s : St} {t C : Nat} {ti : LinkCell} {l : ULog}
    {u : Bool} (ht : s.get? t = some (.link ti)) (hcont : Container s ti.id C) :
    ∀ (f : Nat) (r : Int) (s2 : St) (l2 : ULog),
      unifyBind f u t C s l = some (r, s2, l2) → r = -1 := by
  intro f r s2 l2 hu
  cases f with
  | zero => exact absurd hu (by simp [unifyBind])
  | succ f =>
    rcases hocc : occurs f u ti.id ti.level C s l with _ | ⟨b, s1, l1⟩
    · simp [unifyBind, ht, hocc] at hu
    · cases b with
      | false =>
        exact absurd (Container_occurs_true hcont f u ti.level l false s1 l1 hocc)
          (by simp)
      | true =>
        simp [unifyBind, ht, hocc] at hu
        exact hu.1.symm

/-- C3 amended: for every Unbound link variable `t` and every structural type
that contains `t` (reaching `t` recursively through class generics, record
generics or args, union generics, or the dependent generics of a static whose
expression is not a plain identifier), `unify(t, container)` fails with -1 —
either through the static-ness check or through the occurs check — so no
cyclic Link chain is created.  The one exception forced by the code: a static
whose expression is a plain identifier unifies through its referenced generic
directly, so when that generic is `t` itself the unification succeeds
trivially with score 1 and, again, performs no mutation at all (hence still
creates no cyclic Link chain). -/
theorem C3_occurs_check (s : St) (t C : Nat) (ti : LinkCell) (l : ULog) (u : Bool)
    (ht : s.get? t = some (.link ti)) (hk : ti.kind = .unbound) :
    (Container s ti.id C →
      ∀ (f : Nat) (r : Int) (s2 : St) (l2 : ULog),
        unify f u t C s l = some (r, s2, l2) → r = -1) ∧
    (∀ (g : List Generic) (nm : String) (st : Nat) (sv : Option SVal) (g0 : Generic),
      s.get? C = some (.sta g (.eid nm) st sv) → g.get? 0 = some g0 → g0.ty = t →
      ti.isStat = st →
      ∀ (f : Nat) (r : Int) (s2 : St) (l2 : ULog),
        unify f u t C s l = some (r, s2, l2) → (r, s2, l2) = (1, s, l)) := by
  constructor
  · intro hcont f r s2 l2 hu
    obtain ⟨n, hC, hnl, hnoeid⟩ := Container_node hcont
    cases f with
    | zero => exact absurd hu (by simp [unify])
    | succ f =>
      rw [unify, ht] at hu
      cases f with
      | zero => exact absurd hu (by simp [unifyLink])
      | succ f =>
        rw [unifyLink, ht] at hu
        simp only [hk] at hu
        cases f with
        | zero => exact absurd hu (by simp [isStaticType, fNode, follow])
        | succ f =>
          rw [isStaticType_node hC hnl f] at hu
          by_cases hsb : ti.isStat ≠ nodeStat n
          case pos =>
            simp [hsb] at hu
            exact hu.1.symm
          case neg =>
            rw [fNode_node hC hnl f] at hu
            cases n with
            | link c => exact absurd rfl (hnl c)
            | cls a b cc d =>
              simp [hsb, hC] at hu
              exact unifyBind_container_fails ht hcont (f + 1) r s2 l2 hu
            | record a b cc d e =>
              simp [hsb, hC] at hu
              exact unifyBind_container_fails ht hcont (f + 1) r s2 l2 hu
            | uni a b =>
              simp [hsb, hC] at hu
              exact unifyBind_container_fails ht hcont (f + 1) r s2 l2 hu
            | sta g e st sv =>
              cases e with
              | eid nm => exact absurd rfl (hnoeid g nm st sv)
              | lit v =>
                simp [hsb, hC] at hu
                exact unifyBind_container_fails ht hcont (f + 1) r s2 l2 hu
              | bin o x y =>
                simp [hsb, hC] at hu
                exact unifyBind_container_fails ht hcont (f + 1) r s2 l2 hu
  · intro g nm st sv g0 hC hg0 hty hst f r s2 l2 hu
    have hnl : ∀ c, Node.sta g (.eid nm) st sv ≠ .link c := by intro c; simp
    cases f with
    | zero => exact absurd hu (by simp [unify])
    | succ f =>
      rw [unify, ht] at hu
      cases f with
      | zero => exact absurd hu (by simp [unifyLink])
      | succ f =>
        rw [unifyLink, ht] at hu
        simp only [hk] at hu
        cases f with
        | zero => exact absurd hu (by simp [isStaticType, fNode, follow])
        | succ f =>
          rw [isStaticType_node hC hnl f] at hu
          rw [fNode_node hC hnl f] at hu
          have hg0' : g[0]? = some g0 := by
            rw [← List.get?_eq_getElem?]; exact hg0
          simp [nodeStat, hst, hg0'] at hu
          rw [hty] at hu
          exact unify_self_inv ht hk (f + 1) u l r s2 l2 hu

/-- Counterexample store for C3: index 0 an unbound static variable (id 1),
index 1 a `StaticType` whose expression is the plain identifier `A` and whose
dependent generic `A` is the variable at index 0. -/
def c3s : St :=
  ⟨[.link ⟨.unbound, 1, 0, none, 2, none, none, "A"⟩,
    .sta [⟨"A", "A", 0, 1⟩] (.eid "A") 2 none]⟩

/-- C3 counterexample: the static at index 1 contains the unbound variable
with id 1 through its dependent generics (`Reaches c3s 1 0` — its generic `A`
is the variable itself), yet `unify(t, container)` SUCCEEDS with score 1
instead of failing with -1: `LinkType::unify` short-circuits a static whose
expression is a plain identifier into a unification with the referenced
generic (types.cpp:86-89), which here is the variable itself. -/
theorem C3_counterexample :
    Reaches c3s 1 0 ∧
    (∃ gen, c3s.get? 1 = some (.sta [gen] (.eid "A") 2 none) ∧ gen.ty = 0) ∧
    unify 20 true 0 1 c3s ULog.empty = some (1, c3s, ULog.empty) := by
  refine ⟨Reaches.self 0 ⟨.unbound, 1, 0, none, 2, none, none, "A"⟩ rfl rfl rfl,
    ⟨⟨"A", "A", 0, 1⟩, rfl, rfl⟩, ?_⟩
  rfl

/-- Witness store for the amended C3: index 0 an unbound variable (id 1,
non-static), index 1 the class `List` with that variable as its generic. -/
def c3w : St :=
  ⟨[.link ⟨.unbound, 1, 0, none, 0, none, none, "T"⟩,
    .cls "List" "List" [⟨"T", "T", 0, 9⟩] []]⟩

theorem C3_occurs_check_witness :
    (-1 : Int) = -1 ∧ ((1 : Int), c3s, ULog.empty) = (1, c3s, ULog.empty) := by
  constructor
  · exact (C3_occurs_check c3w 0 1 ⟨.unbound, 1, 0, none, 0, none, none, "T"⟩
      ULog.empty true rfl rfl).1
      (Container.cls 1 "List" "List" [⟨"T", "T", 0, 9⟩] [] ⟨"T", "T", 0, 9⟩ rfl
        (by simp)
        (Reaches.self 0 ⟨.unbound, 1, 0, none, 0, none, none, "T"⟩ rfl rfl rfl))
      20 (-1) c3w ULog.empty (by rfl)
  · exact (C3_occurs_check c3s 0 1 ⟨.unbound, 1, 0, none, 2, none, none, "A"⟩
      ULog.empty true rfl rfl).2
      [⟨"A", "A", 0, 1⟩] "A" 2 none ⟨"A", "A", 0, 1⟩ rfl rfl rfl rfl
      20 1 c3s ULog.empty (by rfl)

/-- Every link cell of `s` persists verbatim into `s2` (no unbound variable
was bound, no level lowered, no trait attached; fresh allocations and static
value caching are allowed). -/
def LinkPres (s s2 : St) : Prop :=
  ∀ i c, s.get? i = some (Node.link c) → s2.get? i = some (Node.link c)

theorem LinkPres.rfl (s : St) : LinkPres s s := fun _ _ h => h

theorem LinkPres.chain {s1 s2 s3 : St} (h1 : LinkPres s1 s2) (h2 : LinkPres s2 s3) :
    LinkPres s1 s3 := fun i c h => h2 i c (h1 i c h)

theorem LinkPres.push (s : St) (n : Node) : LinkPres s (s.push n).1 :=
  fun _ _ h => St.get?_app h

/-- Overwriting a node that is not a link cell preserves every link cell. -/
theorem LinkPres.set_nonlink {s : St} {i : Nat} {n : Node}
    (h : s.get? i = some n) (hn : ∀ c, n ≠ Node.link c) (n2 : Node) :
    LinkPres s (s.set i n2) := by
  intro j c hj
  by_cases hij : j = i
  · subst hij
    rw [h] at hj
    exact absurd (Option.some.inj hj) (hn c)
  · rw [St.get?, St.set, List.getElem?_set_ne (fun he => hij he.symm)]
    exact hj

theorem LinkPres.setSval (s : St) (i : Nat) (v : Option SVal) :
    LinkPres s (s.setSval i v) := by
  rcases hg : s.get? i with _ | n
  · rw [St.setSval, hg]; exact LinkPres.rfl s
  · cases n with
    | sta g e st sv =>
      rw [St.setSval, hg]
      exact LinkPres.set_nonlink hg (fun c hc => Node.noConfusion hc) _
    | link c => rw [St.setSval, hg]; exact LinkPres.rfl s
    | cls a b cc d => rw [St.setSval, hg]; exact LinkPres.rfl s
    | record a b cc d e => rw [St.setSval, hg]; exact LinkPres.rfl s
    | uni a b => rw [St.setSval, hg]; exact LinkPres.rfl s

/-- With no undo log, `occurs` is pure: it changes neither the store (no
level lowering) nor the log. -/
theorem occurs_nolog : ∀ f : Nat,
    (∀ (tid lv : Int) (t : Nat) (s : St) (l : ULog) (b : Bool) (s2 : St) (l2 : ULog),
      occurs f false tid lv t s l = some (b, s2, l2) → s2 = s ∧ l2 = l) ∧
    (∀ (tid lv : Int) (gl : List Generic) (s : St) (l : ULog) (b : Bool) (s2 : St)
      (l2 : ULog),
      occursGens f false tid lv gl s l = some (b, s2, l2) → s2 = s ∧ l2 = l) ∧
    (∀ (tid lv : Int) (al : List Nat) (s : St) (l : ULog) (b : Bool) (s2 : St)
      (l2 : ULog),
      occursArgs f false tid lv al s l = some (b, s2, l2) → s2 = s ∧ l2 = l) := by
  intro f
  induction f with
  | zero =>
    refine ⟨fun _ _ _ _ _ _ _ _ h => ?_, fun _ _ _ _ _ _ _ _ h => ?_,
      fun _ _ _ _ _ _ _ _ h => ?_⟩ <;> simp [occurs, occursGens, occursArgs] at h
  | succ f ih =>
    obtain ⟨ihO, ihG, ihA⟩ := ih
    refine ⟨fun tid lv t s l b s2 l2 h => ?_, fun tid lv gl s l b s2 l2 h => ?_,
      fun tid lv al s l b s2 l2 h => ?_⟩
    · rw [occurs] at h
      split at h
      · split at h
        · split at h
          · simp only [Option.some.injEq, Prod.mk.injEq] at h
            exact ⟨h.2.1.symm, h.2.2.symm⟩
          · split at h
            · rename_i hcond
              exact absurd hcond.1 (by simp)
            · simp only [Option.some.injEq, Prod.mk.injEq] at h
              exact ⟨h.2.1.symm, h.2.2.symm⟩
        · split at h
          · exact ihO _ _ _ _ _ _ _ _ h
          · exact absurd h (by simp)
        · simp only [Option.some.injEq, Prod.mk.injEq] at h
          exact ⟨h.2.1.symm, h.2.2.symm⟩
      · exact ihG _ _ _ _ _ _ _ _ h
      · exact ihG _ _ _ _ _ _ _ _ h
      · split at h
        · simp only [Option.some.injEq, Prod.mk.injEq] at h
          rename_i hx
          obtain ⟨e1, e2⟩ := ihG _ _ _ _ _ _ _ _ hx
          exact ⟨h.2.1.symm.trans e1, h.2.2.symm.trans e2⟩
        · rename_i hx
          obtain ⟨e1, e2⟩ := ihG _ _ _ _ _ _ _ _ hx
          obtain ⟨e3, e4⟩ := ihA _ _ _ _ _ _ _ _ h
          exact ⟨e3.trans e1, e4.trans e2⟩
        · exact absurd h (by simp)
      · exact ihG _ _ _ _ _ _ _ _ h
      · exact absurd h (by simp)
    · cases gl with
      | nil =>
        rw [occursGens] at h
        simp only [Option.some.injEq, Prod.mk.injEq] at h
        exact ⟨h.2.1.symm, h.2.2.symm⟩
      | cons g gs =>
        rw [occursGens] at h
        split at h
        · simp only [Option.some.injEq, Prod.mk.injEq] at h
          rename_i hx
          obtain ⟨e1, e2⟩ := ihO _ _ _ _ _ _ _ _ hx
          exact ⟨h.2.1.symm.trans e1, h.2.2.symm.trans e2⟩
        · rename_i hx
          obtain ⟨e1, e2⟩ := ihO _ _ _ _ _ _ _ _ hx
          obtain ⟨e3, e4⟩ := ihG _ _ _ _ _ _ _ _ h
          exact ⟨e3.trans e1, e4.trans e2⟩
        · exact absurd h (by simp)
    · cases al with
      | nil =>
        rw [occursArgs] at h
        simp only [Option.some.injEq, Prod.mk.injEq] at h
        exact ⟨h.2.1.symm, h.2.2.symm⟩
      | cons a as_ =>
        rw [occursArgs] at h
        split at h
        · simp only [Option.some.injEq, Prod.mk.injEq] at h
          rename_i hx
          obtain ⟨e1, e2⟩ := ihO _ _ _ _ _ _ _ _ hx
          exact ⟨h.2.1.symm.trans e1, h.2.2.symm.trans e2⟩
        · rename_i hx
          obtain ⟨e1, e2⟩ := ihO _ _ _ _ _ _ _ _ hx
          obtain ⟨e3, e4⟩ := ihA _ _ _ _ _ _ _ _ h
          exact ⟨e3.trans e1, e4.trans e2⟩
        · exact absurd h (by simp)

/-- The static evaluation step at the head of `StaticType::unify` caches a
value on a static node; link cells are untouched. -/
theorem staEntry_pres {f : Nat} {s : St} {i : Nat} {s2 : St}
    (h : staEntry f s i = some s2) : LinkPres s s2 := by
  rw [staEntry] at h
  split at h
  · split at h
    · cases h; exact LinkPres.setSval s i _
    · cases h; exact LinkPres.rfl s
    · exact absurd h (by simp)
  · cases h; exact LinkPres.rfl s
  · exact absurd h (by simp)

/-- `realizedName` only caches evaluated static values; link cells are
untouched. -/
theorem rn_pres : ∀ f : Nat,
    (∀ (s : St) (t : Nat) (n : String) (s2 : St),
      realizedName f s t = some (n, s2) → LinkPres s s2) ∧
    (∀ (s : St) (g : List Generic) (ns : List String) (s2 : St),
      rnGens f s g = some (ns, s2) → LinkPres s s2) ∧
    (∀ (s : St) (ts : List Nat) (ns : List String) (s2 : St),
      rnTys f s ts = some (ns, s2) → LinkPres s s2) := by
  intro f
  induction f with
  | zero =>
    refine ⟨fun _ _ _ _ h => ?_, fun _ _ _ _ h => ?_, fun _ _ _ _ h => ?_⟩ <;>
      simp [realizedName, rnGens, rnTys] at h
  | succ f ih =>
    obtain ⟨ihR, ihG, ihT⟩ := ih
    refine ⟨fun s t n s2 h => ?_, fun s g ns s2 h => ?_, fun s ts ns s2 h => ?_⟩
    · rw [realizedName] at h
      split at h
      · split at h
        · exact ihR _ _ _ _ h
        · exact absurd h (by simp)
        · cases h; exact LinkPres.rfl s
      · split at h
        · rename_i hx
          split at h
          · cases h; exact ihG _ _ _ _ hx
          · cases h; exact ihG _ _ _ _ hx
          · exact absurd h (by simp)
        · exact absurd h (by simp)
      · split at h
        · rename_i hx
          split at h
          · cases h; exact ihG _ _ _ _ hx
          · cases h; exact ihG _ _ _ _ hx
          · exact absurd h (by simp)
        · exact absurd h (by simp)
      · split at h
        · split at h
          · rename_i hx
            cases h; exact ihT _ _ _ _ hx
          · exact absurd h (by simp)
        · exact absurd h (by simp)
        · exact absurd h (by simp)
      · split at h
        · split at h
          · cases h; exact LinkPres.rfl s
          · split at h
            · cases h
              exact LinkPres.set_nonlink (by assumption)
                (fun c hc => Node.noConfusion hc) _
            · exact absurd h (by simp)
            · exact absurd h (by simp)
        · exact absurd h (by simp)
        · exact absurd h (by simp)
      · exact absurd h (by simp)
    · cases g with
      | nil =>
        rw [rnGens] at h
        cases h; exact LinkPres.rfl s
      | cons g gs =>
        rw [rnGens] at h
        split at h
        · rename_i hx
          split at h
          · cases h
            exact (ihR _ _ _ _ hx).chain (ihG _ _ _ _ (by assumption))
          · exact absurd h (by simp)
        · exact absurd h (by simp)
    · cases ts with
      | nil =>
        rw [rnTys] at h
        cases h; exact LinkPres.rfl s
      | cons t ts =>
        rw [rnTys] at h
        split at h
        · rename_i hx
          split at h
          · cases h
            exact (ihR _ _ _ _ hx).chain (ihT _ _ _ _ (by assumption))
          · exact absurd h (by simp)
        · exact absurd h (by simp)

/-- With no undo log supplied, the whole unification family performs no
destructive update: every link cell survives verbatim (so no unbound variable
is bound, no level is lowered and no trait is attached) and the undo log is
returned unchanged.  Fresh allocations (the `Int[N]` bridge, open-union
absorption) and static value caching may still extend or annotate the store. -/
theorem unify_nolog : ∀ f : Nat,
    (∀ (a b : Nat) (s : St) (l : ULog) (r : Int) (s2 : St) (l2 : ULog),
      unify f false a b s l = some (r, s2, l2) → LinkPres s s2 ∧ l2 = l) ∧
    (∀ (a b : Nat) (s : St) (l : ULog) (r : Int) (s2 : St) (l2 : ULog),
      unifyLink f false a b s l = some (r, s2, l2) → LinkPres s s2 ∧ l2 = l) ∧
    (∀ (a b : Nat) (s : St) (l : ULog) (r : Int) (s2 : St) (l2 : ULog),
      unifyBind f false a b s l = some (r, s2, l2) → LinkPres s s2 ∧ l2 = l) ∧
    (∀ (a : Nat) (n : String) (g : List Generic) (b : Nat) (s : St) (l : ULog)
      (r : Int) (s2 : St) (l2 : ULog),
      unifyCls f false a n g b s l = some (r, s2, l2) → LinkPres s s2 ∧ l2 = l) ∧
    (∀ (a : Nat) (n : String) (g : List Generic) (args : List Nat) (b : Nat)
      (s : St) (l : ULog) (r : Int) (s2 : St) (l2 : ULog),
      unifyRec f false a n g args b s l = some (r, s2, l2) → LinkPres s s2 ∧ l2 = l) ∧
    (∀ (a b : Nat) (s : St) (l : ULog) (r : Int) (s2 : St) (l2 : ULog),
      unifySta f false a b s l = some (r, s2, l2) → LinkPres s s2 ∧ l2 = l) ∧
    (∀ (a b : Nat) (s : St) (l : ULog) (r : Int) (s2 : St) (l2 : ULog),
      unifyUni f false a b s l = some (r, s2, l2) → LinkPres s s2 ∧ l2 = l) ∧
    (∀ (ps : List (Nat × Nat)) (s : St) (l : ULog) (r : Option Int) (s2 : St)
      (l2 : ULog),
      unifyPairs f false ps s l = some (r, s2, l2) → LinkPres s s2 ∧ l2 = l) ∧
    (∀ (gs : List Generic) (acc : List (String × Nat)) (s : St) (l : ULog)
      (r : Option (List (String × Nat))) (s2 : St) (l2 : ULog),
      dedup f false gs acc s l = some (r, s2, l2) → LinkPres s s2 ∧ l2 = l) ∧
    (∀ (a : Nat) (gj : List Generic) (s : St) (l : ULog) (r : Int) (s2 : St)
      (l2 : ULog),
      absorbAll f false a gj s l = some (r, s2, l2) → LinkPres s s2 ∧ l2 = l) ∧
    (∀ (a : Nat) (gs : List Generic) (b : Nat) (s : St) (l : ULog) (r : Int)
      (s2 : St) (l2 : ULog),
      absorbScan f false a gs b s l = some (r, s2, l2) → LinkPres s s2 ∧ l2 = l) := by
  intro f
  induction f with
  | zero =>
    refine ⟨fun _ _ _ _ _ _ _ h => ?_, fun _ _ _ _ _ _ _ h => ?_,
      fun _ _ _ _ _ _ _ h => ?_, fun _ _ _ _ _ _ _ _ _ h => ?_,
      fun _ _ _ _ _ _ _ _ _ _ h => ?_, fun _ _ _ _ _ _ _ h => ?_,
      fun _ _ _ _ _ _ _ h => ?_, fun _ _ _ _ _ _ h => ?_,
      fun _ _ _ _ _ _ _ h => ?_, fun _ _ _ _ _ _ _ h => ?_,
      fun _ _ _ _ _ _ _ _ h => ?_⟩ <;>
      simp [unify, unifyLink, unifyBind, unifyCls, unifyRec, unifySta, unifyUni,
        unifyPairs, dedup, absorbAll, absorbScan] at h
  | succ f ih =>
    obtain ⟨ihU, ihL, ihB, ihC, ihR, ihS, ihUn, ihP, ihD, ihAA, ihAS⟩ := ih
    refine ⟨fun a b s l r s2 l2 h => ?_, fun a b s l r s2 l2 h => ?_,
      fun a b s l r s2 l2 h => ?_, fun a n g b s l r s2 l2 h => ?_,
      fun a n g args b s l r s2 l2 h => ?_, fun a b s l r s2 l2 h => ?_,
      fun a b s l r s2 l2 h => ?_, fun ps s l r s2 l2 h => ?_,
      fun gs acc s l r s2 l2 h => ?_, fun a gj s l r s2 l2 h => ?_,
      fun a gs b s l r s2 l2 h => ?_⟩
    · rw [unify] at h
      split at h
      · exact ihL _ _ _ _ _ _ _ h
      · exact ihC _ _ _ _ _ _ _ _ _ h
      · exact ihR _ _ _ _ _ _ _ _ _ _ h
      · exact ihUn _ _ _ _ _ _ _ h
      · exact ihS _ _ _ _ _ _ _ h
      · exact absurd h (by simp)
    · rw [unifyLink] at h
      split at h
      · split at h
        · split at h
          · exact ihU _ _ _ _ _ _ _ h
          · exact absurd h (by simp)
        · cases h; exact ⟨LinkPres.rfl s, rfl⟩
        · split at h
          · exact absurd h (by simp)
          · split at h
            · cases h; exact ⟨LinkPres.rfl s, rfl⟩
            · split at h
              · exact absurd h (by simp)
              · split at h
                · exact ihU _ _ _ _ _ _ _ h
                · exact absurd h (by simp)
              · split at h
                · split at h
                  · split at h
                    · exact ihU _ _ _ _ _ _ _ h
                    · exact absurd h (by simp)
                  · cases h; exact ⟨LinkPres.rfl s, rfl⟩
                  · split at h
                    · cases h; exact ⟨LinkPres.rfl s, rfl⟩
                    · split at h
                      · exact ihU _ _ _ _ _ _ _ h
                      · exact ihB _ _ _ _ _ _ _ h
                · exact ihB _ _ _ _ _ _ _ h
      · exact absurd h (by simp)
    · rw [unifyBind] at h
      split at h
      · rename_i c hceq
        split at h
        · exact absurd h (by simp)
        · rename_i s1 l1 hx
          cases h
          obtain ⟨e1, e2⟩ := (occurs_nolog f).1 _ _ _ _ _ _ _ _ hx
          refine ⟨?_, e2⟩
          rw [e1]; exact LinkPres.rfl s
        · rename_i s1 l1 hx
          obtain ⟨e1, e2⟩ := (occurs_nolog f).1 _ _ _ _ _ _ _ _ hx
          split at h
          · exact absurd h (by simp)
          · rename_i tr s3 l3 htr
            have hstep : LinkPres s1 s3 ∧ l3 = l1 := by
              rcases hct : c.trait with _ | inner
              · rw [hct] at htr
                cases htr
                exact ⟨LinkPres.rfl s1, rfl⟩
              · rw [hct] at htr
                exact ihU _ _ _ _ _ _ _ htr
            split at h
            · cases h
              refine ⟨LinkPres.chain ?_ hstep.1, hstep.2.trans e2⟩
              rw [e1]; exact LinkPres.rfl s
            · split at h
              · rename_i hcond
                exact absurd hcond (by simp)
              · cases h
                refine ⟨LinkPres.chain ?_ hstep.1, hstep.2.trans e2⟩
                rw [e1]; exact LinkPres.rfl s
      · exact absurd h (by simp)
    · rw [unifyCls] at h
      split at h
      · exact absurd h (by simp)
      · split at h
        · split at h
          · cases h; exact ⟨LinkPres.rfl s, rfl⟩
          · split at h
            · cases h; exact ⟨LinkPres.rfl s, rfl⟩
            · split at h
              · exact absurd h (by simp)
              · rename_i s1 l1 hx
                cases h
                exact ihP _ _ _ _ _ _ hx
              · rename_i sum s1 l1 hx
                cases h
                exact ihP _ _ _ _ _ _ hx
        · split at h
          · exact ihL _ _ _ _ _ _ _ h
          · cases h; exact ⟨LinkPres.rfl s, rfl⟩
    · rw [unifyRec] at h
      split at h
      · exact absurd h (by simp)
      · split at h
        · split at h
          · exact ihU _ _ _ _ _ _ _ h
          · split at h
            · split at h
              · obtain ⟨e1, e2⟩ := ihU _ _ _ _ _ _ _ h
                exact ⟨(LinkPres.push s _).chain e1, e2⟩
              · exact absurd h (by simp)
            · split at h
              · cases h; exact ⟨LinkPres.rfl s, rfl⟩
              · split at h
                · exact absurd h (by simp)
                · rename_i s1 l1 hx
                  cases h
                  exact ihP _ _ _ _ _ _ hx
                · rename_i sum s1 l1 hx
                  split at h
                  · cases h
                    exact ihP _ _ _ _ _ _ hx
                  · obtain ⟨e1, e2⟩ := ihP _ _ _ _ _ _ hx
                    obtain ⟨e3, e4⟩ := ihC _ _ _ _ _ _ _ _ _ h
                    exact ⟨e1.chain e3, e4.trans e2⟩
        · split at h
          · exact ihL _ _ _ _ _ _ _ h
          · cases h; exact ⟨LinkPres.rfl s, rfl⟩
    · rw [unifySta] at h
      split at h
      · exact absurd h (by simp)
      · split at h
        · exact absurd h (by simp)
        · rename_i s1 hs1
          split at h
          · exact absurd h (by simp)
          · rename_i s2x hs2
            have pres2 : LinkPres s s2x := (staEntry_pres hs1).chain (staEntry_pres hs2)
            split at h
            · split at h
              · cases h; exact ⟨pres2, rfl⟩
              · split at h
                · split at h
                  · cases h; exact ⟨pres2, rfl⟩
                  · cases h; exact ⟨pres2, rfl⟩
                · obtain ⟨e1, e2⟩ := ihU _ _ _ _ _ _ _ h
                  exact ⟨pres2.chain e1, e2⟩
                · split at h
                  · split at h
                    · obtain ⟨e1, e2⟩ := ihU _ _ _ _ _ _ _ h
                      exact ⟨pres2.chain e1, e2⟩
                    · exact absurd h (by simp)
                  · split at h
                    · cases h; exact ⟨pres2, rfl⟩
                    · split at h
                      · cases h; exact ⟨pres2, rfl⟩
                      · split at h
                        · exact absurd h (by simp)
                        · rename_i s3 l3 hx
                          cases h
                          obtain ⟨e1, e2⟩ := ihP _ _ _ _ _ _ hx
                          exact ⟨pres2.chain e1, e2⟩
                        · rename_i sum s3 l3 hx
                          cases h
                          obtain ⟨e1, e2⟩ := ihP _ _ _ _ _ _ hx
                          exact ⟨pres2.chain e1, e2⟩
            · exact absurd h (by simp)
      · split at h
        · exact ihL _ _ _ _ _ _ _ h
        · cases h; exact ⟨LinkPres.rfl s, rfl⟩
    · rw [unifyUni] at h
      split at h
      · split at h
        · split at h
          · exact absurd h (by simp)
          · split at h
            · split at h
              · cases h; exact ⟨LinkPres.rfl s, rfl⟩
              · split at h
                · exact absurd h (by simp)
                · rename_i s1 l1 hx
                  cases h
                  exact ihD _ _ _ _ _ _ _ hx
                · rename_i m1 s1 l1 hx
                  obtain ⟨e1, e2⟩ := ihD _ _ _ _ _ _ _ hx
                  split at h
                  · exact absurd h (by simp)
                  · rename_i s2x l2x hy
                    cases h
                    obtain ⟨e3, e4⟩ := ihD _ _ _ _ _ _ _ hy
                    exact ⟨e1.chain e3, e4.trans e2⟩
                  · rename_i m2 s2x l2x hy
                    obtain ⟨e3, e4⟩ := ihD _ _ _ _ _ _ _ hy
                    split at h
                    · cases h
                      exact ⟨e1.chain e3, e4.trans e2⟩
                    · split at h
                      · exact absurd h (by simp)
                      · rename_i s3 l3 hz
                        cases h
                        obtain ⟨e5, e6⟩ := ihP _ _ _ _ _ _ hz
                        exact ⟨(e1.chain e3).chain e5, (e6.trans e4).trans e2⟩
                      · rename_i sum s3 l3 hz
                        cases h
                        obtain ⟨e5, e6⟩ := ihP _ _ _ _ _ _ hz
                        exact ⟨(e1.chain e3).chain e5, (e6.trans e4).trans e2⟩
            · exact absurd h (by simp)
          · split at h
            · exact ihL _ _ _ _ _ _ _ h
            · cases h; exact ⟨LinkPres.rfl s, rfl⟩
        · split at h
          · exact absurd h (by simp)
          · exact ihAA _ _ _ _ _ _ _ h
          · exact ihAS _ _ _ _ _ _ _ _ h
      · exact absurd h (by simp)
    · cases ps with
      | nil =>
        rw [unifyPairs] at h
        cases h; exact ⟨LinkPres.rfl s, rfl⟩
      | cons p rest =>
        obtain ⟨x, y⟩ := p
        rw [unifyPairs] at h
        split at h
        · exact absurd h (by simp)
        · rename_i r1 s1 l1 hx
          obtain ⟨e1, e2⟩ := ihU _ _ _ _ _ _ _ hx
          split at h
          · cases h
            exact ⟨e1, e2⟩
          · split at h
            · exact absurd h (by simp)
            · rename_i s2x l2x hy
              cases h
              obtain ⟨e3, e4⟩ := ihP _ _ _ _ _ _ hy
              exact ⟨e1.chain e3, e4.trans e2⟩
            · rename_i sum s2x l2x hy
              cases h
              obtain ⟨e3, e4⟩ := ihP _ _ _ _ _ _ hy
              exact ⟨e1.chain e3, e4.trans e2⟩
    · cases gs with
      | nil =>
        rw [dedup] at h
        cases h; exact ⟨LinkPres.rfl s, rfl⟩
      | cons g1 rest =>
        rw [dedup] at h
        split at h
        · exact absurd h (by simp)
        · rename_i key s1 hx
          have p1 : LinkPres s s1 := (rn_pres f).1 _ _ _ _ hx
          split at h
          · split at h
            · exact absurd h (by simp)
            · rename_i r1 s2x l2x hy
              obtain ⟨e1, e2⟩ := ihU _ _ _ _ _ _ _ hy
              split at h
              · cases h
                exact ⟨p1.chain e1, e2⟩
              · obtain ⟨e3, e4⟩ := ihD _ _ _ _ _ _ _ h
                exact ⟨(p1.chain e1).chain e3, e4.trans e2⟩
          · obtain ⟨e3, e4⟩ := ihD _ _ _ _ _ _ _ h
            exact ⟨p1.chain e3, e4⟩
    · cases gj with
      | nil =>
        rw [absorbAll] at h
        cases h; exact ⟨LinkPres.rfl s, rfl⟩
      | cons t rest =>
        rw [absorbAll] at h
        split at h
        · exact absurd h (by simp)
        · rename_i r1 s1 l1 hx
          obtain ⟨e1, e2⟩ := ihU _ _ _ _ _ _ _ hx
          split at h
          · exact absurd h (by simp)
          · rename_i sc s2x l2x hy
            cases h
            obtain ⟨e3, e4⟩ := ihAA _ _ _ _ _ _ _ hy
            exact ⟨e1.chain e3, e4.trans e2⟩
    · cases gs with
      | nil =>
        rw [absorbScan] at h
        split at h
        · rename_i g2 se hx
          cases h
          exact ⟨LinkPres.set_nonlink hx (fun c hc => Node.noConfusion hc) _, rfl⟩
        · exact absurd h (by simp)
      | cons gi rest =>
        rw [absorbScan] at h
        split at h
        · exact absurd h (by simp)
        · rename_i rp sp lp hx
          have p1 : LinkPres s sp := (ihU _ _ _ _ _ _ _ hx).1
          split at h
          · obtain ⟨e1, e2⟩ := ihU _ _ _ _ _ _ _ h
            exact ⟨p1.chain e1, e2⟩
          · obtain ⟨e1, e2⟩ := ihAS _ _ _ _ _ _ _ _ h
            exact ⟨p1.chain e1, e2⟩

/-- C1 amended: when `undo` is null and `unify(a, b, nullptr)` succeeds, NO
binding happens at all — the destructive part of `LinkType::unify` is guarded
by `if (undo)`, so every link cell (kind, id, level, target, static-ness,
trait, default, name) survives verbatim and the undo log is untouched; the
call is a pure compatibility check up to fresh allocations and static value
caching. -/
theorem C1_undo_null_no_mutation (f : Nat) (a b : Nat) (s : St) (l : ULog)
    (r : Int) (s2 : St) (l2 : ULog)
    (h : unify f false a b s l = some (r, s2, l2)) :
    LinkPres s s2 ∧ l2 = l :=
  (unify_nolog f).1 a b s l r s2 l2 h

/-- Store for C1: the class `int` at index 0 and an unbound variable (id 1)
at index 1. -/
def c1s : St :=
  ⟨[.cls "int" "int" [] [], .link ⟨.unbound, 1, 0, none, 0, none, none, "a"⟩]⟩

/-- C1 counterexample: unifying the unbound variable at index 1 with `int`
succeeds with score 0 in both modes, but with a null undo the variable stays
Unbound with no target (the store is returned bit-for-bit unchanged), while
with an undo log the very same call turns it into a Link targeting `int`.
The spec's sentence "if undo is null, the same mutation happens but is
permanent" is therefore wrong: with a null undo no mutation happens. -/
theorem C1_counterexample :
    unify 10 false 1 0 c1s ULog.empty = some (0, c1s, ULog.empty) ∧
    unify 10 true 1 0 c1s ULog.empty =
      some (0, c1s.set 1 (.link ⟨.link, 1, 0, some 0, 0, none, none, "a"⟩),
        ⟨[1], [], []⟩) ∧
    c1s.get? 1 ≠
      (c1s.set 1 (.link ⟨.link, 1, 0, some 0, 0, none, none, "a"⟩)).get? 1 := by
  refine ⟨by rfl, by rfl, by decide⟩

theorem C1_undo_null_no_mutation_witness :
    LinkPres c1s c1s ∧ ULog.empty = ULog.empty :=
  C1_undo_null_no_mutation 10 1 0 c1s ULog.empty 0 c1s ULog.empty (by rfl)

/-- The spec's description of sealed-union-vs-union unification: deduplicate
each side's alternatives by realized name (unifying colliding duplicates),
require equal-size alternative maps, and unify pairwise in sorted key order,
scoring `2 +` the sum. -/
def specSealedUnify (f : Nat) (u : Bool) (g gj : List Generic) (s : St)
    (l : ULog) : Option (Int × St × ULog) :=
  match dedup f u g [] s l with
  | none => none
  | some (none, s1, l1) => some (-1, s1, l1)
  | some (some m1, s1, l1) =>
    match dedup f u gj [] s1 l1 with
    | none => none
    | some (none, s2, l2) => some (-1, s2, l2)
    | some (some m2, s2, l2) =>
      if m1.length ≠ m2.length then some (-1, s2, l2)
      else
        match unifyPairs f u ((m1.map (fun x => x.2)).zip (m2.map (fun x => x.2))) s2 l2 with
        | none => none
        | some (none, s3, l3) => some (-1, s3, l3)
        | some (some sum, s3, l3) => some (2 + sum, s3, l3)

/-- C7 amended: a sealed union `a` against another union `b` follows the
spec's dedup-then-compare pipeline ONLY when both sides can realize; when
either side has an unrealizable member the unification trivially succeeds
with score 0 and no state change, regardless of the alternative multisets
(types.cpp:878-881). -/
theorem C7_sealed_union_unify (f : Nat) (u : Bool) (a b j : Nat)
    (g gj : List Generic) (sj : Bool) (s : St) (l : ULog) (ca cj : Bool)
    (ha : s.get? a = some (.uni g true))
    (hb : fNode f s b = some (j, .uni gj sj))
    (hca : canRealize f s a = some ca)
    (hcj : canRealize f s j = some cj) :
    (ca = true → cj = true →
      unify (f + 2) u a b s l = specSealedUnify f u g gj s l) ∧
    ((ca = false ∨ cj = false) → unify (f + 2) u a b s l = some (0, s, l)) := by
  have h0 : unify (f + 2) u a b s l = unifyUni (f + 1) u a b s l := by
    rw [unify, ha]
  constructor
  · intro h1 h2
    subst h1
    subst h2
    rw [h0, unifyUni, ha]
    simp [hb, hca, hcj, specSealedUnify]
  · intro hor
    rcases hor with h1 | h1 <;> subst h1 <;>
      (rw [h0, unifyUni, ha]; simp [hb, hca, hcj])

/-- Store for C7: `int` (0), `str` (1), an unbound variable (2), the sealed
union `{int}` (3), the sealed union `{str, unbound}` (4, not realizable) and
the sealed union `{str}` (5, realizable). -/
def c7s : St :=
  ⟨[.cls "int" "int" [] [],
    .cls "str" "str" [] [],
    .link ⟨.unbound, 5, 0, none, 0, none, none, "u"⟩,
    .uni [⟨"a", "a", 0, 1⟩] true,
    .uni [⟨"b", "b", 1, 10⟩, ⟨"c", "c", 2, 11⟩] true,
    .uni [⟨"d", "d", 1, 12⟩] true]⟩

/-- C7 counterexample: the sealed unions `{int}` and `{str, unbound}` have
different alternative multisets, yet their unification SUCCEEDS with score 0
because the right side cannot realize — refuting "a sealed union unifies with
another sealed union only when both have realizable members with matching
multiset".  With both sides realizable (`{int}` vs `{str}`) the dedup-compare
pipeline does run and fails as expected. -/
theorem C7_counterexample :
    canRealize 20 c7s 4 = some false ∧
    unify 20 true 3 4 c7s ULog.empty = some (0, c7s, ULog.empty) ∧
    unify 20 true 3 5 c7s ULog.empty = some (-1, c7s, ULog.empty) := by
  refine ⟨rfl, by rfl, by rfl⟩

theorem C7_sealed_union_unify_witness :
    unify 22 true 3 4 c7s ULog.empty = some (0, c7s, ULog.empty) ∧
    unify 22 true 3 5 c7s ULog.empty =
      specSealedUnify 20 true [⟨"a", "a", 0, 1⟩] [⟨"d", "d", 1, 12⟩] c7s
        ULog.empty := by
  constructor
  · exact (C7_sealed_union_unify 20 true 3 4 4 [⟨"a", "a", 0, 1⟩]
      [⟨"b", "b", 1, 10⟩, ⟨"c", "c", 2, 11⟩] true c7s ULog.empty true false
      rfl rfl rfl rfl).2 (Or.inr rfl)
  · exact (C7_sealed_union_unify 20 true 3 5 5 [⟨"a", "a", 0, 1⟩]
      [⟨"d", "d", 1, 12⟩] true c7s ULog.empty true true rfl rfl rfl rfl).1 rfl rfl

/-- `occurs` on a single Unbound variable with a different id reports false;
the store is unchanged or has only that variable's level lowered. -/
theorem occurs_unbound_ne {s : St} {y : Nat} {cy : LinkCell}
    (hy : s.get? y = some (.link cy)) (hk : cy.kind = .unbound)
    {selfId : Int} (hne : cy.id ≠ selfId) :
    ∀ (f : Nat) (u : Bool) (lv : Int) (l : ULog) (bb : Bool) (s1 : St) (l1 : ULog),
      occurs f u selfId lv y s l = some (bb, s1, l1) →
      bb = false ∧ (s1 = s ∨ s1 = s.set y (.link { cy with level := lv })) := by
  intro f u lv l bb s1 l1 h
  cases f with
  | zero => exact absurd h (by simp [occurs])
  | succ f =>
    rw [occurs] at h
    rw [hy] at h
    simp [hk, hne] at h
    split at h
    · cases h; exact ⟨rfl, Or.inr (by rw [hk])⟩
    · cases h; exact ⟨rfl, Or.inl rfl⟩

/-- The binding tail on an Unbound variable `x` without a trait against a
distinct Unbound variable `y`: whenever it returns, the score is 0. -/
theorem unifyBind_unbound_zero {s : St} {x y : Nat} {cx cy : LinkCell} {u : Bool}
    (hx : s.get? x = some (.link cx)) (hy : s.get? y = some (.link cy))
    (hky : cy.kind = .unbound) (htx : cx.trait = none)
    (hne : cy.id ≠ cx.id) (hxy : x ≠ y) :
    ∀ (f : Nat) (l : ULog) (r : Int) (s2 : St) (l2 : ULog),
      unifyBind f u x y s l = some (r, s2, l2) → r = 0 := by
  intro f l r s2 l2 h
  cases f with
  | zero => exact absurd h (by simp [unifyBind])
  | succ f =>
    rw [unifyBind, hx] at h
    rcases hocc : occurs f u cx.id cx.level y s l with _ | ⟨bb, s1, l1⟩
    · simp [hocc] at h
    · obtain ⟨hbb, hs1⟩ := occurs_unbound_ne hy hky hne f u cx.level l bb s1 l1 hocc
      subst hbb
      have hx1 : s1.get? x = some (.link cx) := by
        rcases hs1 with h1 | h1
        · rw [h1]; exact hx
        · rw [h1, St.get?, St.set, List.getElem?_set_ne (fun he => hxy he.symm)]
          exact hx
      simp [hocc, htx] at h
      split at h
      · split at h
        · exact absurd h (by simp)
        · rw [hx1] at h
          simp [htx] at h
          split at h
          · cases h; rfl
          · cases h; rfl
      · cases h; rfl

/-- C6 amended: at the Link layer — both sides resolved to Unbound or Generic
variables without traits — the success/failure outcome of unification is
symmetric in argument order: whenever `unify(a, b)` returns, it fails (-1)
exactly when one side is Generic or the static-ness flags differ, a condition
symmetric in `a` and `b`.  (The symmetry claimed for all type pairs is false:
an open union absorbs any type, while `ClassType::unify` rejects a union by
name — see the counterexample.) -/
theorem C6_link_failure_symmetry (f : Nat) (u : Bool) (a b : Nat)
    (ca cb : LinkCell) (s : St) (l : ULog) (r : Int) (s2 : St) (l2 : ULog)
    (ha : s.get? a = some (.link ca)) (hb : s.get? b = some (.link cb))
    (hka : ca.kind ≠ .link) (hkb : cb.kind ≠ .link)
    (hta : ca.trait = none) (htb : cb.trait = none)
    (h : unify f u a b s l = some (r, s2, l2)) :
    r = -1 ↔ (ca.kind = .generic ∨ cb.kind = .generic ∨ ca.isStat ≠ cb.isStat) := by
  cases f with
  | zero => exact absurd h (by simp [unify])
  | succ f =>
  rw [unify, ha] at h
  cases f with
  | zero => exact absurd h (by simp [unifyLink])
  | succ f =>
  rw [unifyLink, ha] at h
  cases hck : ca.kind with
  | link => exact absurd hck hka
  | generic =>
    simp only [hck] at h
    simp at h
    obtain ⟨h1, h2, h3⟩ := h
    subst h1
    exact iff_of_true rfl (Or.inl rfl)
  | unbound =>
    simp only [hck] at h
    cases f with
    | zero => exact absurd h (by simp [isStaticType, fNode, follow])
    | succ f =>
    rw [isStaticType_stop hb hkb f] at h
    by_cases hst : ca.isStat ≠ cb.isStat
    · simp [hst] at h
      obtain ⟨h1, h2, h3⟩ := h
      subst h1
      exact iff_of_true rfl (Or.inr (Or.inr hst))
    · rw [fNode_stop hb hkb f] at h
      cases hckb : cb.kind with
      | link => exact absurd hckb hkb
      | generic =>
        simp [hst, hb, hckb] at h
        obtain ⟨h1, h2, h3⟩ := h
        subst h1
        exact iff_of_true rfl (Or.inr (Or.inl rfl))
      | unbound =>
        simp [hst, hb, hckb] at h
        by_cases hid : ca.id = cb.id
        · simp [hid] at h
          obtain ⟨h1, h2, h3⟩ := h
          subst h1
          exact iff_of_false (by decide) (by simp [hst])
        · by_cases hlt : ca.id < cb.id
          · simp [hid, hlt] at h
            cases f with
            | zero => exact absurd h (by simp [unify, unifyLink, hb])
            | succ f =>
            rw [unify, hb] at h
            rw [unifyLink, hb] at h
            simp only [hckb] at h
            cases f with
            | zero => exact absurd h (by simp [isStaticType, fNode, follow])
            | succ f =>
            rw [isStaticType_stop ha hka f] at h
            rw [fNode_stop ha hka f] at h
            have hst2 : ¬(cb.isStat ≠ ca.isStat) :=
              not_ne_iff.mpr (not_ne_iff.mp hst).symm
            have hid2 : ¬(cb.id = ca.id) := fun he => hid he.symm
            have hlt2 : ¬(cb.id < ca.id) := lt_asymm hlt
            simp [hst2, ha, hck, hid2, hlt2] at h
            have hab : b ≠ a := by
              intro he
              rw [he, ha] at hb
              exact hid (congrArg LinkCell.id (Node.link.inj (Option.some.inj hb)))
            have hz := unifyBind_unbound_zero hb ha hck htb hid (fun he => hab he)
              (f + 1) l r s2 l2 h
            subst hz
            exact iff_of_false (by decide) (by simp [hst])
          · simp [hid, hlt] at h
            have hab : a ≠ b := by
              intro he
              rw [he, hb] at ha
              exact hid (congrArg LinkCell.id (Node.link.inj (Option.some.inj ha))).symm
            have hz := unifyBind_unbound_zero ha hb hckb hta
              (fun he => hid he.symm) hab (f + 1) l r s2 l2 h
            subst hz
            exact iff_of_false (by decide) (by simp [hst])

/-- Store for the C6 counterexample: the class `X` at 0 and an empty open
union at 1. -/
def c6x : St := ⟨[.cls "X" "X" [] [], .uni [] false]⟩

/-- C6 counterexample: `unify(X, openUnion)` fails with -1 (class-vs-class
name check against "Union"), but `unify(openUnion, X)` SUCCEEDS with score 1
by absorbing `X` as a new alternative — failure is not symmetric in argument
order. -/
theorem C6_counterexample :
    unify 20 true 0 1 c6x ULog.empty = some (-1, c6x, ULog.empty) ∧
    unify 20 true 1 0 c6x ULog.empty =
      some (1, c6x.set 1 (.uni [⟨"u", "u", 0, 100⟩] false), ULog.empty) :=
  ⟨by rfl, by rfl⟩

/-- Store for the C6 witness: a Generic variable at 0, an Unbound variable
at 1. -/
def c6w : St :=
  ⟨[.link ⟨.generic, 1, 0, none, 0, none, none, "T"⟩,
    .link ⟨.unbound, 2, 0, none, 0, none, none, "u"⟩]⟩

theorem C6_link_failure_symmetry_witness :
    ((-1 : Int) = -1 ↔
      (TKind.generic = TKind.generic ∨ TKind.unbound = TKind.generic ∨
        (0 : Nat) ≠ 0)) :=
  C6_link_failure_symmetry 10 true 0 1
    ⟨.generic, 1, 0, none, 0, none, none, "T"⟩
    ⟨.unbound, 2, 0, none, 0, none, none, "u"⟩ c6w ULog.empty (-1) c6w ULog.empty
    rfl rfl (by decide) (by decide) rfl rfl (by rfl)

theorem St.set_set (s : St) (i : Nat) (a b : Node) :
    (s.set i a).set i b = s.set i b := by
  rw [St.set, St.set, St.set, List.set_set]

theorem St.set_self {s : St} {i : Nat} {v : Node} (h : s.get? i = some v) :
    s.set i v = s := by
  cases s with
  | mk nodes =>
    rw [St.set]
    congr 1
    apply List.ext_getElem?
    intro n
    by_cases hn : n = i
    · subst hn
      rw [List.getElem?_set_self (St.get?_lt h)]
      exact h.symm
    · rw [List.getElem?_set_ne (fun he => hn he.symm)]

/-- The level-restoration pass of `Unification::undo` (its second loop). -/
def lvlRestore (d : List (Nat × Int)) (s : St) : St :=
  d.reverse.foldl (fun s p => s.setCell p.1 (fun c => { c with level := p.2 })) s

theorem lvlRestore_app (d1 d2 : List (Nat × Int)) (s : St) :
    lvlRestore (d1 ++ d2) s = lvlRestore d1 (lvlRestore d2 s) := by
  rw [lvlRestore, lvlRestore, lvlRestore, List.reverse_append, List.foldl_append]

/-- Restoring a single recorded level undoes a single level lowering. -/
theorem lvlRestore_single {s : St} {t : Nat} {c : LinkCell}
    (ht : s.get? t = some (.link c)) (lv : Int) :
    lvlRestore [(t, c.level)] (s.set t (.link { c with level := lv })) = s := by
  have hg : (s.set t (.link { c with level := lv })).get? t =
      some (.link { c with level := lv }) := by
    rw [St.get?, St.set, List.getElem?_set_self (St.get?_lt ht)]
  rw [lvlRestore]
  simp only [List.reverse_cons, List.reverse_nil, List.nil_append, List.foldl_cons,
    List.foldl_nil]
  rw [St.setCell, hg]
  simp only [St.set_set]
  exact St.set_self ht

/-- `occurs` records every level lowering it performs: the output log extends
the input log's `leveled` list by a delta whose restoration pass maps the
output store back to the input store. -/
theorem occursAcc : ∀ f : Nat,
    (∀ (u : Bool) (tid lv : Int) (t : Nat) (s : St) (l : ULog) (b : Bool) (s1 : St)
      (l1 : ULog), occurs f u tid lv t s l = some (b, s1, l1) →
      ∃ d, l1 = ⟨l.linked, l.leveled ++ d, l.traits⟩ ∧ lvlRestore d s1 = s) ∧
    (∀ (u : Bool) (tid lv : Int) (gl : List Generic) (s : St) (l : ULog) (b : Bool)
      (s1 : St) (l1 : ULog), occursGens f u tid lv gl s l = some (b, s1, l1) →
      ∃ d, l1 = ⟨l.linked, l.leveled ++ d, l.traits⟩ ∧ lvlRestore d s1 = s) ∧
    (∀ (u : Bool) (tid lv : Int) (al : List Nat) (s : St) (l : ULog) (b : Bool)
      (s1 : St) (l1 : ULog), occursArgs f u tid lv al s l = some (b, s1, l1) →
      ∃ d, l1 = ⟨l.linked, l.leveled ++ d, l.traits⟩ ∧ lvlRestore d s1 = s) := by
  intro f
  induction f with
  | zero =>
    refine ⟨fun _ _ _ _ _ _ _ _ _ h => ?_, fun _ _ _ _ _ _ _ _ _ h => ?_,
      fun _ _ _ _ _ _ _ _ _ h => ?_⟩ <;> simp [occurs, occursGens, occursArgs] at h
  | succ f ih =>
    obtain ⟨ihO, ihG, ihA⟩ := ih
    refine ⟨fun u tid lv t s l b s1 l1 h => ?_, fun u tid lv gl s l b s1 l1 h => ?_,
      fun u tid lv al s l b s1 l1 h => ?_⟩
    · rw [occurs] at h
      split at h
      · split at h
        · split at h
          · cases h
            exact ⟨[], by simp, rfl⟩
          · split at h
            · rename_i hx
              cases h
              refine ⟨[(t, _)], rfl, ?_⟩
              exact lvlRestore_single (by assumption) lv
            · cases h
              exact ⟨[], by simp, rfl⟩
        · split at h
          · exact ihO _ _ _ _ _ _ _ _ _ h
          · exact absurd h (by simp)
        · cases h
          exact ⟨[], by simp, rfl⟩
      · exact ihG _ _ _ _ _ _ _ _ _ h
      · exact ihG _ _ _ _ _ _ _ _ _ h
      · split at h
        · rename_i hx
          cases h
          exact ihG _ _ _ _ _ _ _ _ _ hx
        · rename_i hx
          obtain ⟨d1, he1, hr1⟩ := ihG _ _ _ _ _ _ _ _ _ hx
          obtain ⟨d2, he2, hr2⟩ := ihA _ _ _ _ _ _ _ _ _ h
          refine ⟨d1 ++ d2, ?_, ?_⟩
          · rw [he2, he1]
            simp [List.append_assoc]
          · rw [lvlRestore_app, hr2, hr1]
        · exact absurd h (by simp)
      · exact ihG _ _ _ _ _ _ _ _ _ h
      · exact absurd h (by simp)
    · cases gl with
      | nil =>
        rw [occursGens] at h
        cases h
        exact ⟨[], by simp, rfl⟩
      | cons g gs =>
        rw [occursGens] at h
        split at h
        · rename_i hx
          cases h
          exact ihO _ _ _ _ _ _ _ _ _ hx
        · rename_i hx
          obtain ⟨d1, he1, hr1⟩ := ihO _ _ _ _ _ _ _ _ _ hx
          obtain ⟨d2, he2, hr2⟩ := ihG _ _ _ _ _ _ _ _ _ h
          refine ⟨d1 ++ d2, ?_, ?_⟩
          · rw [he2, he1]
            simp [List.append_assoc]
          · rw [lvlRestore_app, hr2, hr1]
        · exact absurd h (by simp)
    · cases al with
      | nil =>
        rw [occursArgs] at h
        cases h
        exact ⟨[], by simp, rfl⟩
      | cons a as_ =>
        rw [occursArgs] at h
        split at h
        · rename_i hx
          cases h
          exact ihO _ _ _ _ _ _ _ _ _ hx
        · rename_i hx
          obtain ⟨d1, he1, hr1⟩ := ihO _ _ _ _ _ _ _ _ _ hx
          obtain ⟨d2, he2, hr2⟩ := ihA _ _ _ _ _ _ _ _ _ h
          refine ⟨d1 ++ d2, ?_, ?_⟩
          · rw [he2, he1]
            simp [List.append_assoc]
          · rw [lvlRestore_app, hr2, hr1]
        · exact absurd h (by simp)

/-- The binding tail with an undo log records exactly its mutations: whenever
`unifyBind` returns for an Unbound, trait-free, target-free variable `x`, the
output log extends the input log by a delta whose `undo` maps the output store
back to the input store — both on the occurs-check failure path (only levels
were lowered) and on the successful bind (the link plus the levels). -/
theorem unifyBind_undo {s : St} {x : Nat} {cx : LinkCell}
    (hx : s.get? x = some (.link cx)) (hk : cx.kind = .unbound)
    (htg : cx.target = none) (htr : cx.trait = none) :
    ∀ (f : Nat) (y : Nat) (l : ULog) (r : Int) (s2 : St) (l2 : ULog),
      unifyBind f true x y s l = some (r, s2, l2) →
      ∃ d : ULog, l2 = l.app d ∧ ULog.undo d s2 = s := by
  intro f y l r s2 l2 h
  cases f with
  | zero => exact absurd h (by simp [unifyBind])
  | succ f =>
    rw [unifyBind, hx] at h
    rcases hocc : occurs f true cx.id cx.level y s l with _ | ⟨bb, s1, l1⟩
    · simp [hocc] at h
    · obtain ⟨d, hl1, hres⟩ := (occursAcc f).1 _ _ _ _ _ _ _ _ _ hocc
      have hsh : ShapeEq s s1 := (occurs_shape f).1 _ _ _ _ _ _ _ _ _ hocc
      cases bb with
      | true =>
        simp [hocc] at h
        obtain ⟨h1, h2, h3⟩ := h
        subst h2
        subst h3
        refine ⟨⟨[], d, []⟩, ?_, ?_⟩
        · rw [hl1]
          simp [ULog.app]
        · show lvlRestore d s1 = s
          exact hres
      | false =>
        obtain ⟨lvx, hx1⟩ := hsh.get_link hx
        simp [hocc, htr] at h
        split at h
        · exact absurd h (by simp)
        · rename_i j hfol
          rw [hx1] at h
          simp [htr] at h
          have key :
              ∀ hEq : s2 =
                s1.set x
                  (.link ⟨.link, cx.id, lvx, some j, cx.isStat, none, cx.dflt,
                    cx.gname⟩),
              ∀ hL : l2 = l1.pushLinked x,
              ∃ d2 : ULog, l2 = l.app d2 ∧ ULog.undo d2 s2 = s := by
            intro hEq hL
            subst hEq
            subst hL
            refine ⟨⟨[x], d, []⟩, ?_, ?_⟩
            · rw [hl1]
              simp [ULog.app, ULog.pushLinked]
            · have hg2 :
                  (s1.set x
                    (.link ⟨.link, cx.id, lvx, some j, cx.isStat, none, cx.dflt,
                      cx.gname⟩)).get? x =
                  some (.link ⟨.link, cx.id, lvx, some j, cx.isStat, none, cx.dflt,
                    cx.gname⟩) := by
                rw [St.get?, St.set, List.getElem?_set_self (St.get?_lt hx1)]
              show lvlRestore d
                ((s1.set x
                  (.link ⟨.link, cx.id, lvx, some j, cx.isStat, none, cx.dflt,
                    cx.gname⟩)).setCell x
                      (fun c => { c with kind := .unbound, target := none })) = s
              rw [St.setCell, hg2]
              simp only [St.set_set]
              have hcell :
                  (Node.link ⟨.unbound, cx.id, lvx, none, cx.isStat, none, cx.dflt,
                    cx.gname⟩) =
                  Node.link { cx with level := lvx } := by
                cases cx
                simp_all
              rw [hcell, St.set_self hx1]
              exact hres
          split at h
          · cases h
            exact key rfl rfl
          · cases h
            exact key rfl rfl

/-- C4 amended (restore part): for a successful (or occurs-failed) unification
of an Unbound, trait-free variable against a class type, the undo log delta
recorded by the attempt restores the store exactly: every variable linked is
restored to Unbound with no target and every lowered level is restored, so
`undo` maps the post-state back to the pre-state bit-for-bit (a rerun from the
restored store therefore behaves identically).  The claim's universal rerun
guarantee is false in general: open-union absorption and static value caching
are NOT recorded in the log — see the counterexample. -/
theorem C4_undo_correctness (f : Nat) (a b : Nat) (cx : LinkCell) (n nn : String)
    (g hdn : List Generic) (s : St) (l : ULog)
    (ha : s.get? a = some (.link cx)) (hk : cx.kind = .unbound)
    (htg : cx.target = none) (htr : cx.trait = none) (hst : cx.isStat = 0)
    (hb : s.get? b = some (.cls n nn g hdn)) :
    ∀ (r : Int) (s2 : St) (l2 : ULog),
      unify f true a b s l = some (r, s2, l2) →
      ∃ d : ULog, l2 = l.app d ∧ ULog.undo d s2 = s := by
  intro r s2 l2 h
  have hnl : ∀ cc, Node.cls n nn g hdn ≠ .link cc := by intro cc hcc; cases hcc
  cases f with
  | zero => exact absurd h (by simp [unify])
  | succ f =>
  rw [unify, ha] at h
  cases f with
  | zero => exact absurd h (by simp [unifyLink])
  | succ f =>
  rw [unifyLink, ha] at h
  simp only [hk] at h
  cases f with
  | zero => exact absurd h (by simp [isStaticType, fNode, follow])
  | succ f =>
  rw [isStaticType_node hb hnl f] at h
  rw [fNode_node hb hnl f] at h
  simp [nodeStat, hst, hb] at h
  exact unifyBind_undo ha hk htg htr (f + 1) b l r s2 l2 h

/-- Store for the C4 witness: an Unbound variable (id 1, level 5) and `int`. -/
def c4w : St :=
  ⟨[.link ⟨.unbound, 1, 5, none, 0, none, none, "a"⟩, .cls "int" "int" [] []]⟩

theorem C4_undo_correctness_witness :
    ∃ d : ULog, (⟨[0], [], []⟩ : ULog) = ULog.empty.app d ∧
      ULog.undo d (c4w.set 0 (.link ⟨.link, 1, 5, some 1, 0, none, none, "a"⟩)) =
        c4w :=
  C4_undo_correctness 10 0 1 ⟨.unbound, 1, 5, none, 0, none, none, "a"⟩
    "int" "int" [] [] c4w ULog.empty rfl rfl rfl rfl rfl rfl 0
    (c4w.set 0 (.link ⟨.link, 1, 5, some 1, 0, none, none, "a"⟩))
    ⟨[0], [], []⟩ (by rfl)

/-- Store for the C4 counterexample: the class `X` and an empty open union. -/
def c4x : St := ⟨[.cls "X" "X" [] [], .uni [] false]⟩

/-- The same store after the open union absorbed `X` as a new alternative. -/
def c4xP : St := c4x.set 1 (.uni [⟨"u", "u", 0, 100⟩] false)

/-- C4 counterexample: unifying the open union with `X` succeeds (score 1) by
appending `X` to the union's alternatives, with an EMPTY undo log — the
absorption is not recorded.  `undo` therefore restores nothing (the post-state
differs from the pre-state), and a second identical call behaves differently:
it scores 3 (probing the now-present alternative) instead of 1.  This refutes
"a subsequent unify(a, b, undo2) succeeds again identically and neither side
retains lingering state". -/
theorem C4_counterexample :
    unify 20 true 1 0 c4x ULog.empty = some (1, c4xP, ULog.empty) ∧
    ULog.undo ULog.empty c4xP = c4xP ∧
    c4xP ≠ c4x ∧
    unify 20 true 1 0 c4xP ULog.empty = some (3, c4xP, ULog.empty) :=
  ⟨by rfl, rfl, by decide, by rfl⟩

end Codon
